import Mathlib

/-!
Verification development for the `news2videoYT` repository's content-extraction
core (`app/espn_scraper.py`).  The Python functions are shallowly embedded as
executable Lean definitions over `List Char` / `String`; external library calls
(`urllib.parse`, `re` on the two concrete patterns used, `requests`/`urllib3`
retries, `json.loads`, BeautifulSoup tree navigation, `datetime.fromisoformat`)
are modelled at their interface, restricted to the behaviour the scraper
exercises.
-/

namespace Scraper

/-! ### Character and string helpers -/

/-- ASCII lower-casing of a single character, as `str.lower` acts on ASCII. -/
def lowerC (c : Char) : Char :=
  if 65 ≤ c.toNat ∧ c.toNat ≤ 90 then Char.ofNat (c.toNat + 32) else c

/-- ASCII lower-casing of a character list (`str.lower` restricted to ASCII;
    non-ASCII characters such as the curly apostrophe are left unchanged). -/
def lowerL (l : List Char) : List Char := l.map lowerC

def isDigitC (c : Char) : Bool := 48 ≤ c.toNat ∧ c.toNat ≤ 57

/-- Split a character list on every occurrence of `sep` (Python `str.split(sep)`
    for a one-character separator: n+1 chunks for n separators). -/
def splitSep (sep : Char) : List Char → List (List Char)
  | [] => [[]]
  | c :: r =>
    let rest := splitSep sep r
    if c = sep then [] :: rest
    else match rest with
      | [] => [[c]]
      | h :: t => (c :: h) :: t

/-- Split at the first occurrence of `sep`: `(before, some after)` when `sep`
    occurs, `(whole, none)` otherwise (Python `str.split(sep, 1)`). -/
def splitFirst (sep : Char) : List Char → List Char × Option (List Char)
  | [] => ([], none)
  | c :: r =>
    if c = sep then ([], some r)
    else
      let (b, a) := splitFirst sep r
      (c :: b, a)

/-- Take the longest leading run of characters satisfying `p`. -/
def takeRun (p : Char → Bool) : List Char → List Char
  | [] => []
  | c :: r => if p c then c :: takeRun p r else []

/-- Python whitespace test used by `str.strip` / `str.split()` (ASCII subset). -/
def isSpaceC (c : Char) : Bool :=
  c = ' ' ∨ c = '\t' ∨ c = '\n' ∨ c = '\r' ∨ c = Char.ofNat 11 ∨ c = Char.ofNat 12

/-- `str.strip()` on a character list. -/
def stripL (l : List Char) : List Char :=
  (l.dropWhile isSpaceC).reverse.dropWhile isSpaceC |>.reverse

/-- `str.split()` with no argument: split on whitespace runs, dropping empties. -/
def splitWs (l : List Char) : List (List Char) :=
  ((splitSep ' ' (l.map fun c => if isSpaceC c then ' ' else c)).filter
    fun w => ¬ w.isEmpty)

/-! ### Percent-coding (`urllib.parse.quote_plus` / `unquote_plus`)

Modelled for code points below 256 (one byte per character); this covers every
URL the scraper manipulates. -/

def hexVal (c : Char) : Option Nat :=
  if 48 ≤ c.toNat ∧ c.toNat ≤ 57 then some (c.toNat - 48)
  else if 97 ≤ c.toNat ∧ c.toNat ≤ 102 then some (c.toNat - 87)
  else if 65 ≤ c.toNat ∧ c.toNat ≤ 70 then some (c.toNat - 55)
  else none

def hexDig (n : Nat) : Char :=
  if n < 10 then Char.ofNat (48 + n) else Char.ofNat (55 + n)

/-- The decoding scan of `unquote_plus`, with one unit of fuel per consumed
    character (a malformed escape emits the `%` and rescans its tail). -/
def unquoteAux : Nat → List Char → List Char
  | 0, l => l
  | _ + 1, [] => []
  | fuel + 1, c :: r =>
    if c = '+' then ' ' :: unquoteAux fuel r
    else if c = '%' then
      match r with
      | a :: b :: r' =>
        match hexVal a, hexVal b with
        | some x, some y => Char.ofNat (16 * x + y) :: unquoteAux fuel r'
        | _, _ => '%' :: unquoteAux fuel r
      | _ => '%' :: unquoteAux fuel r
    else c :: unquoteAux fuel r

/-- `urllib.parse.unquote_plus`: `+` becomes space, `%XY` (hex) becomes the
    coded character, malformed escapes pass through.  The fuel `l.length`
    suffices: every step consumes at least one character. -/
def unquotePlus (l : List Char) : List Char := unquoteAux l.length l

/-- Characters `quote_plus` leaves unescaped (`always_safe` minus nothing,
    with `safe=''` as `urlencode` uses it). -/
def isSafeC (c : Char) : Bool :=
  (97 ≤ c.toNat ∧ c.toNat ≤ 122) ∨ (65 ≤ c.toNat ∧ c.toNat ≤ 90) ∨
    (48 ≤ c.toNat ∧ c.toNat ≤ 57) ∨ c = '_' ∨ c = '.' ∨ c = '-' ∨ c = '~'

/-- `urllib.parse.quote_plus` on one character. -/
def quoteC (c : Char) : List Char :=
  if isSafeC c then [c]
  else if c = ' ' then ['+']
  else ['%', hexDig (c.toNat / 16 % 16), hexDig (c.toNat % 16)]

/-- `urllib.parse.quote_plus` on a character list. -/
def quotePlus (l : List Char) : List Char := l.flatMap quoteC

/-! ### URL splitting (`urllib.parse.urlparse` / `urlunparse`)

The `params` (`;`) component, which the scraper never produces or consumes, is
omitted; otherwise the split/join rules follow CPython's `urlsplit`. -/

structure UrlParts where
  scheme : List Char
  netloc : List Char
  path : List Char
  query : List Char
  fragment : List Char
deriving Repr, DecidableEq

def isSchemeC (c : Char) : Bool :=
  (97 ≤ c.toNat ∧ c.toNat ≤ 122) ∨ (65 ≤ c.toNat ∧ c.toNat ≤ 90) ∨
    (48 ≤ c.toNat ∧ c.toNat ≤ 57) ∨ c = '+' ∨ c = '-' ∨ c = '.'

def isAlphaC (c : Char) : Bool :=
  (97 ≤ c.toNat ∧ c.toNat ≤ 122) ∨ (65 ≤ c.toNat ∧ c.toNat ≤ 90)

/-- Extract `scheme:` when the URL starts with a letter followed by
    scheme characters and a colon; the scheme is lower-cased. -/
def splitScheme (l : List Char) : List Char × List Char :=
  match l with
  | [] => ([], [])
  | c :: _ =>
    if isAlphaC c then
      let run := takeRun isSchemeC l
      let rest := l.drop run.length
      match rest with
      | ':' :: r => (lowerL run, r)
      | _ => ([], l)
    else ([], l)

def isNetlocEnd (c : Char) : Bool := c = '/' ∨ c = '?' ∨ c = '#'

/-- Model of `urllib.parse.urlparse` (without the `params` component). -/
def urlparse (s : List Char) : UrlParts :=
  let (scheme, rest) := splitScheme s
  let (netloc, rest) :=
    match rest with
    | '/' :: '/' :: r =>
      let nl := takeRun (fun c => ¬ isNetlocEnd c) r
      (nl, r.drop nl.length)
    | _ => ([], rest)
  let (rest, frag) := splitFirst '#' rest
  let (path, q) := splitFirst '?' rest
  { scheme := scheme, netloc := netloc, path := path,
    query := q.getD [], fragment := frag.getD [] }

/-- Model of `urllib.parse.urlunparse` (empty `params`). -/
def urlunparse (u : UrlParts) : List Char :=
  let url := u.path
  let url :=
    if ¬ u.netloc.isEmpty ∨ (url.take 2 = ['/', '/']) then
      let url' := match url with
        | [] => []
        | '/' :: _ => url
        | _ => '/' :: url
      '/' :: '/' :: (u.netloc ++ url')
    else url
  let url := if ¬ u.scheme.isEmpty then u.scheme ++ (':' :: url) else url
  let url := if ¬ u.query.isEmpty then url ++ ('?' :: u.query) else url
  if ¬ u.fragment.isEmpty then url ++ ('#' :: u.fragment) else url

/-! ### Query-string handling (`parse_qsl`, `parse_qs`, `urlencode`) -/

/-- One chunk of `parse_qsl`: empty chunks, equals-less chunks and blank
    values are dropped; both sides are percent-decoded. -/
def qslStep (chunk : List Char) (acc : List (List Char × List Char)) :
    List (List Char × List Char) :=
  if chunk.isEmpty then acc
  else match splitFirst '=' chunk with
    | (_, none) => acc
    | (_, some []) => acc
    | (n, some v) => (unquotePlus n, unquotePlus v) :: acc

/-- `urllib.parse.parse_qsl` with default flags: split on `&`, then process
    each chunk. -/
def parseQsl (qs : List Char) : List (List Char × List Char) :=
  (splitSep '&' qs).foldr qslStep []

/-- Append `v` to the entry for `k` in an ordered multi-dict (first-insertion
    order, as a Python dict built by appending). -/
def multiUpsert (k : List Char) (v : List Char) :
    List (List Char × List (List Char)) → List (List Char × List (List Char))
  | [] => [(k, [v])]
  | (k', vs) :: rest =>
    if k' = k then (k', vs ++ [v]) :: rest
    else (k', vs) :: multiUpsert k v rest

/-- `urllib.parse.parse_qs`: key → list of values, keys in first-seen order. -/
def parseQs (qs : List Char) : List (List Char × List (List Char)) :=
  (parseQsl qs).foldl (fun acc (p : List Char × List Char) =>
    multiUpsert p.1 p.2 acc) []

/-- Association-list lookup (Python `dict.get` over our ordered dicts). -/
def alookup {β : Type} (k : List Char) : List (List Char × β) → Option β
  | [] => none
  | (k', v) :: rest => if k' = k then some v else alookup k rest

/-- Overwrite-or-append: Python `dict[k] = v` on an insertion-ordered dict. -/
def upsert {β : Type} (k : List Char) (v : β) :
    List (List Char × β) → List (List Char × β)
  | [] => [(k, v)]
  | (k', v') :: rest =>
    if k' = k then (k', v) :: rest else (k', v') :: upsert k v rest

/-- `dict(pairs)`: last value wins, position of first insertion kept. -/
def dictLastWins (l : List (List Char × List Char)) :
    List (List Char × List Char) :=
  l.foldl (fun acc (p : List Char × List Char) => upsert p.1 p.2 acc) []

/-- `urllib.parse.urlencode` over an ordered dict (default `quote_via`). -/
def urlencodeD (d : List (List Char × List Char)) : List Char :=
  match d.map (fun p => quotePlus p.1 ++ ('=' :: quotePlus p.2)) with
  | [] => []
  | h :: t => t.foldl (fun acc x => acc ++ ('&' :: x)) h

/-! ### The two regular expressions of `espn_scraper.py`

`re.sub(r'_(\d{2,4}x\d{2,4})(_[\d:x=]+)?(?=\.)', "", base)` and
`SIZE_TOKEN = re.compile(r'(?P<w>\d{2,4})x(?P<h>\d{2,4})')` with `.search`.
Python's scan is leftmost with greedy backtracking; because `\d{2,4}` is
bracketed by non-class characters here, backtracking collapses to: each
bounded-digit item must consume its entire maximal digit run (of length 2–4),
and the optional `(_[\d:x=]+)` group must consume its entire maximal class run
followed by the look-ahead dot.  `\d` is modelled as the ASCII digits. -/

/-- Characters of the optional trailer class `[\d:x=]`. -/
def isClassC (c : Char) : Bool := isDigitC c ∨ c = ':' ∨ c = 'x' ∨ c = '='

/-- Attempt of the strip pattern at one position: `c` is the character at the
    position, `r` the remainder.  Returns the number of characters of `r`
    consumed by a match (the position character `c`, which must be `_`, is
    consumed in addition; the look-ahead dot is not consumed). -/
def matchTail (c : Char) (r : List Char) : Option Nat :=
  if c = '_' then
    let a := (takeRun isDigitC r).length
    if 2 ≤ a ∧ a ≤ 4 then
      match r.drop a with
      | 'x' :: r2 =>
        let b := (takeRun isDigitC r2).length
        if 2 ≤ b ∧ b ≤ 4 then
          match r2.drop b with
          | '.' :: _ => some (a + 1 + b)
          | '_' :: r3 =>
            let g := (takeRun isClassC r3).length
            if 1 ≤ g ∧ (r3.drop g).head? = some '.' then
              some (a + 1 + b + 1 + g)
            else none
          | _ => none
        else none
      | _ => none
    else none
  else none

/-- The scan of `re.sub` with fuel (one unit per position): remove each
    non-overlapping match, left to right. -/
def stripAux : Nat → List Char → List Char
  | 0, l => l
  | _ + 1, [] => []
  | fuel + 1, c :: r =>
    match matchTail c r with
    | some k => stripAux fuel (r.drop k)
    | none => c :: stripAux fuel r

/-- `re.sub` of the size-suffix pattern with the empty replacement.  The
    fuel `l.length` suffices: every step consumes at least one character. -/
def stripSizeSuffixes (l : List Char) : List Char := stripAux l.length l

/-- `SIZE_TOKEN` match attempt at one position: the width component's value
    when `\d{2,4}x\d{2,4}` matches here. -/
def digitsToNat (l : List Char) : Nat :=
  l.foldl (fun n c => 10 * n + (c.toNat - 48)) 0

def sizeTokenAt (l : List Char) : Option Nat :=
  let m := (takeRun isDigitC l).length
  let k := min m 4
  if 2 ≤ k then
    match l.drop k with
    | 'x' :: r2 => if 2 ≤ (takeRun isDigitC r2).length then
        some (digitsToNat (l.take k)) else none
    | _ => none
  else none

/-- `SIZE_TOKEN.search`: leftmost match, returning `int(m.group("w"))`. -/
def searchSizeToken : List Char → Option Nat
  | [] => none
  | c :: r =>
    match sizeTokenAt (c :: r) with
    | some w => some w
    | none => searchSizeToken r

/-- First maximal digit run in a string (`re.findall(r"\d+", s)[0]`),
    `none` when the string has no digit. -/
def firstDigitRun : List Char → Option (List Char)
  | [] => none
  | c :: r => if isDigitC c then some (c :: takeRun isDigitC r)
              else firstDigitRun r

/-! ### Image canonicalization and dedup (`espn_scraper.py` lines 194–233) -/

/-- `canonical_image_key`: host plus the cleaned base path; the base is the
    first `img` query value for combiner URLs, else the URL path, with size
    suffixes stripped; an empty host falls back to `"espncdn"`. -/
def canonical_image_key (url : List Char) : List Char :=
  let u := urlparse url
  let q := parseQs u.query
  let base :=
    match alookup ['i', 'm', 'g'] q with
    | some (v :: _) => v
    | _ => u.path
  let base := stripSizeSuffixes base
  let host := if u.netloc.isEmpty then "espncdn".data else u.netloc
  host ++ (':' :: base)

/-- The combiner-base selection inside `canonical_image_key`:
    `q.get("img", [u.path])[0]` over the parsed query. -/
def combinerBase (q : List Char) (p : List Char) : List Char :=
  match alookup ['i', 'm', 'g'] (parseQs q) with
  | some (v :: _) => v
  | _ => p

/-- `infer_width_from_url`: digits of the first `w=` query value; with no `w=`
    parameter, the width component of the first `WIDTHxHEIGHT` token in the
    whole URL; else 0.  A `w=` value without digits raises `IndexError` inside
    the guarded block, which returns 0 (the token search is not reached). -/
def infer_width_from_url (url : List Char) : Nat :=
  match alookup ['w'] (parseQs (urlparse url).query) with
  | some (v :: _) =>
    match firstDigitRun v with
    | some run => digitsToNat run
    | none => 0
  | _ =>
    match searchSizeToken url with
    | some w => w
    | none => 0

/-- An image candidate dict as built by the discovery strategies. -/
structure ImageCandidate where
  src : List Char
  width : Option Nat
  alt : Option (List Char)
  caption : Option (List Char)
deriving Repr, DecidableEq

/-- `it.get("width") or infer_width_from_url(it["src"]) or 0`: a missing or
    zero (falsy) width is inferred from the URL. -/
def effWidth (it : ImageCandidate) : Nat :=
  match it.width with
  | some n => if n = 0 then infer_width_from_url it.src else n
  | none => infer_width_from_url it.src

/-- One iteration of the `dedupe_keep_largest` loop on the bucket dict. -/
def dedupeStep (buckets : List (List Char × ImageCandidate))
    (it : ImageCandidate) : List (List Char × ImageCandidate) :=
  let w := effWidth it
  let key := canonical_image_key it.src
  match alookup key buckets with
  | none => upsert key { it with width := some w } buckets
  | some prev =>
    if w > prev.width.getD 0 then upsert key { it with width := some w } buckets
    else buckets

/-- `dedupe_keep_largest`: fold the candidates into an insertion-ordered
    bucket dict keyed by canonical key, keeping the strictly larger width,
    then take `list(buckets.values())`. -/
def dedupe_keep_largest (images : List ImageCandidate) : List ImageCandidate :=
  (images.foldl dedupeStep []).map Prod.snd

/-- The per-key projection of `dedupeStep`: how the bucket value for one
    canonical key evolves when a candidate of that key arrives. -/
def dedupePick (acc : Option ImageCandidate) (it : ImageCandidate) :
    Option ImageCandidate :=
  match acc with
  | none => some { it with width := some (effWidth it) }
  | some prev =>
    if effWidth it > prev.width.getD 0 then
      some { it with width := some (effWidth it) }
    else acc

/-- Insertion order of first-seen keys. -/
def firstSeenKeys (ks : List (List Char)) : List (List Char) :=
  ks.foldl (fun acc k => if k ∈ acc then acc else acc ++ [k]) []

/-! ### Fetch client (`build_session`, `add_amp`, `get_link`)

The wire is modelled as a function from a global request counter to the
outcome of that request (a connection-level failure or a status plus body).
`transportGet` models one `session.get` through the `urllib3.util.retry.Retry`
configuration installed by `build_session` (`total=3`,
`status_forcelist=(429,500,502,503,504)`, `raise_on_status=False`, GET
allowed): up to three transport-level retries per call, after which a
retryable status is returned as a response and a connection failure is
raised.  Redirect following and header rotation, which no claim concerns,
are not modelled. -/

/-- Outcome of one wire-level HTTP request. -/
inductive WireOutcome where
  | netErr
  | resp (status : Nat) (body : List Char)

/-- A `requests.Response` as far as the scraper reads it. -/
structure Response where
  status : Nat
  body : List Char
  url : List Char
deriving Repr, DecidableEq

/-- `Retry.status_forcelist` from `build_session`. -/
def retryStatuses : List Nat := [429, 500, 502, 503, 504]

/-- Errors `get_link` can raise: a connection-level error surfaced after the
    transport budget, or `requests.HTTPError` from `raise_for_status`. -/
inductive FetchError where
  | network
  | http (status : Nat)
deriving Repr, DecidableEq

/-- `add_amp`: re-encode the query as a last-wins dict and append or
    overwrite `platform=amp`. -/
def add_amp (url : List Char) : List Char :=
  let parsed := urlparse url
  let query := dictLastWins (parseQsl parsed.query)
  let query :=
    if alookup "platform".data query = some "amp".data then query
    else upsert "platform".data "amp".data query
  urlunparse { parsed with query := urlencodeD query }

/-- One `session.get` under the `build_session` retry configuration: `n` is
    the global wire counter, `budget` the remaining transport retries
    (initially 3).  Returns the response (or connection error) and the new
    counter. -/
def transportGet (server : Nat → WireOutcome) (url : List Char) :
    Nat → Nat → Except Unit Response × Nat
  | n, 0 =>
    match server n with
    | .netErr => (.error (), n + 1)
    | .resp s body => (.ok ⟨s, body, url⟩, n + 1)
  | n, b + 1 =>
    match server n with
    | .netErr => transportGet server url (n + 1) b
    | .resp s body =>
      if s ∈ retryStatuses then transportGet server url (n + 1) b
      else (.ok ⟨s, body, url⟩, n + 1)

/-- The body of one iteration of the `get_link` attempt loop: a `session.get`
    of the URL, the 403→AMP fallback with its inner `session.get`, and
    `raise_for_status` (an exception becomes `.error`, caught by the loop). -/
def attemptGet (server : Nat → WireOutcome) (url : List Char) (n : Nat) :
    Except FetchError Response × Nat :=
  let (r, n') := transportGet server url n 3
  match r with
  | .error () => (.error .network, n')
  | .ok resp =>
    if resp.status = 403 then
      let (r2, n'') := transportGet server (add_amp url) n' 3
      match r2 with
      | .error () => (.error .network, n'')
      | .ok resp2 =>
        if resp2.status < 400 then (.ok resp2, n'')
        else (.error (.http resp.status), n'')
    else if 400 ≤ resp.status then (.error (.http resp.status), n')
    else (.ok resp, n')

/-- The `for attempt in range(retries + 1)` loop of `get_link`: on an
    exception, sleep `backoff * 2 ** attempt` and go around while attempts
    remain (`remaining` counts them), else re-raise.  The returned list is
    the sleep trace. -/
def getLinkLoop (server : Nat → WireOutcome) (url : List Char) (backoff : ℚ) :
    Nat → Nat → Nat → Except FetchError Response × Nat × List ℚ
  | 0, _, n =>
    match attemptGet server url n with
    | (.ok resp, n') => (.ok resp, n', [])
    | (.error e, n') => (.error e, n', [])
  | rem + 1, attempt, n =>
    match attemptGet server url n with
    | (.ok resp, n') => (.ok resp, n', [])
    | (.error _, n') =>
      let (r', n'', sleeps) :=
        getLinkLoop server url backoff rem (attempt + 1) n'
      (r', n'', backoff * 2 ^ attempt :: sleeps)

/-- `get_link(url)` with its default `retries=2`, `backoff=0.75` against the
    wire model `server`, starting from wire counter 0. -/
def get_link (server : Nat → WireOutcome) (url : List Char) :
    Except FetchError Response × Nat × List ℚ :=
  getLinkLoop server url (3 / 4) 2 0 0

/-! ### JSON values and the parsed HTML tree

`json.loads` and the HTML parser are external; the embedding works at their
interface: a document is a forest of nodes, and a JSON-LD `<script>` carries
the result of `json.loads` on its text (`none` for a malformed block). -/

inductive Json where
  | null
  | bool (b : Bool)
  | num (n : Int)
  | str (s : List Char)
  | arr (items : List Json)
  | obj (fields : List (List Char × Json))
deriving Repr

/-- A node of the parsed document: an element with attributes and children, a
    text node, or an `application/ld+json` script whose text loads to the
    given value. -/
inductive Node where
  | elem (tag : List Char) (attrs : List (List Char × List Char))
      (children : List Node)
  | textN (s : List Char)
  | scriptLd (loads : Option Json)
deriving Repr

/-- Lookup in a JSON object's fields (`dict.get` on a loaded object). -/
def jlookup (k : List Char) : List (List Char × Json) → Option Json
  | [] => none
  | (k', v) :: rest => if k' = k then some v else jlookup k rest

/-- Python truthiness of a loaded JSON value. -/
def jtruthy : Json → Bool
  | .null => false
  | .bool b => b
  | .num n => n ≠ 0
  | .str s => ¬ s.isEmpty
  | .arr l => ¬ l.isEmpty
  | .obj f => ¬ f.isEmpty

mutual
/-- Preorder walk pairing every node with its ancestor element chain
    (nearest first). -/
def walk (anc : List Node) : Node → List (Node × List Node)
  | .elem t a cs => (.elem t a cs, anc) :: walkList (.elem t a cs :: anc) cs
  | n => [(n, anc)]

def walkList (anc : List Node) : List Node → List (Node × List Node)
  | [] => []
  | n :: rest => walk anc n ++ walkList anc rest
end

/-- Document-order list of all nodes of a forest. -/
def allNodes (doc : List Node) : List Node := (walkList [] doc).map Prod.fst

/-- Descendants of a node, excluding the node itself (the search space of
    BeautifulSoup's `find` / `find_all` on an element). -/
def descendantsOf : Node → List Node
  | .elem _ _ cs => allNodes cs
  | _ => []

def tagOf : Node → Option (List Char)
  | .elem t _ _ => some t
  | _ => none

def attrsOf : Node → List (List Char × List Char)
  | .elem _ a _ => a
  | _ => []

/-- `el.get(key)` on an element's attributes. -/
def attrGet (n : Node) (k : List Char) : Option (List Char) :=
  alookup k (attrsOf n)

/-- The whitespace-separated tokens of an element's `class` attribute. -/
def classTokens (n : Node) : List (List Char) :=
  splitWs ((attrGet n "class".data).getD [])

/-- `fig.find(tag)`: first descendant element with the given name. -/
def findTag (n : Node) (t : List Char) : Option Node :=
  ((descendantsOf n).filter fun m => tagOf m = some t).head?

/-- `el.find_all(tags)`: descendant elements with a name in `tags`, in
    document order. -/
def findAllTags (n : Node) (ts : List (List Char)) : List Node :=
  (descendantsOf n).filter fun m =>
    match tagOf m with
    | some t => t ∈ ts
    | none => false

/-- `el.stripped_strings`: stripped non-empty text descendants in order. -/
def strippedStrings (n : Node) : List (List Char) :=
  (descendantsOf n).filterMap fun m =>
    match m with
    | .textN s => let t := stripL s; if t.isEmpty then none else some t
    | _ => none

/-- Join a list of strings with single spaces (`" ".join(...)`). -/
def joinSpace : List (List Char) → List Char
  | [] => []
  | h :: t => t.foldl (fun acc x => acc ++ (' ' :: x)) h

/-- `extract_text`: space-joined stripped strings, `""` for `None`. -/
def extract_text : Option Node → List Char
  | none => []
  | some el => joinSpace (strippedStrings el)

/-- The CSS selector shapes used by the scraper. -/
inductive Sel where
  | attrIs (key val : List Char)
  | tagAttrIs (tag key val : List Char)
  | classUnder (ancTag cls : List Char)
  | tagUnder (ancTag tag : List Char)
  | tagClass (tag : List Char) (cls : List (List Char))
deriving Repr

/-- Whether element `n` with ancestor chain `anc` matches the selector. -/
def selMatches (s : Sel) (n : Node) (anc : List Node) : Bool :=
  match s with
  | .attrIs k v => (tagOf n).isSome ∧ attrGet n k = some v
  | .tagAttrIs t k v => tagOf n = some t ∧ attrGet n k = some v
  | .classUnder a c =>
    (tagOf n).isSome ∧ c ∈ classTokens n ∧ anc.any fun m => tagOf m = some a
  | .tagUnder a t => tagOf n = some t ∧ anc.any fun m => tagOf m = some a
  | .tagClass t cs => tagOf n = some t ∧ cs.all fun c => c ∈ classTokens n

/-- `soup.select(sel)`: matching elements in document order. -/
def selectAll (doc : List Node) (s : Sel) : List Node :=
  (walkList [] doc).filterMap fun p =>
    if selMatches s p.1 p.2 then some p.1 else none

/-- `soup.select_one(sel)`. -/
def selectOne (doc : List Node) (s : Sel) : Option Node :=
  (selectAll doc s).head?

/-- `select_first_element`: the first selector of the list that matches. -/
def select_first_element (doc : List Node) : List Sel → Option Node
  | [] => none
  | s :: rest =>
    match selectOne doc s with
    | some el => some el
    | none => select_first_element doc rest

/-- `soup.find("meta", property=prop)` followed by the guarded `["content"]`
    access: the content string when the tag exists and its content is
    truthy. -/
def metaContent (doc : List Node) (prop : List Char) : Option (List Char) :=
  match (allNodes doc).filter (fun m =>
      tagOf m = some "meta".data ∧ attrGet m "property".data = some prop)
    |>.head? with
  | some el =>
    match attrGet el "content".data with
    | some c => if c.isEmpty then none else some c
    | none => none
  | none => none

/-! ### JSON-LD metadata (`parse_jsonld`, author extraction, dates) -/

/-- The scripts of the document, in order (`soup.find_all("script",
    type="application/ld+json")`). -/
def docScripts (doc : List Node) : List (Option Json) :=
  (allNodes doc).filterMap fun n =>
    match n with
    | .scriptLd l => some l
    | _ => none

/-- `data if isinstance(data, list) else [data]`. -/
def jsonldItems : Json → List Json
  | .arr l => l
  | j => [j]

/-- Is this item a dict whose `@type` is `NewsArticle` or `Article`? -/
def isArticleObj (j : Json) : Bool :=
  match j with
  | .obj fields =>
    match jlookup "@type".data fields with
    | some (.str t) => t = "NewsArticle".data ∨ t = "Article".data
    | _ => false
  | _ => false

/-- Scan of one tag's items: a non-dict item raises `AttributeError`
    (`.error`, the whole tag is skipped); else the first Article-family dict
    is returned. -/
def scanItems : List Json → Except Unit (Option Json)
  | [] => .ok none
  | j :: rest =>
    match j with
    | .obj fields =>
      if isArticleObj (.obj fields) then .ok (some (.obj fields))
      else scanItems rest
    | _ => .error ()

/-- `parse_jsonld`: first Article-family item over all script tags, skipping
    tags that fail to load or raise; `{}` when none is found. -/
def parse_jsonld : List (Option Json) → Json
  | [] => .obj []
  | s :: rest =>
    match s with
    | none => parse_jsonld rest
    | some j =>
      match scanItems (jsonldItems j) with
      | .ok (some found) => found
      | _ => parse_jsonld rest

/-- `ld.get(k)` where `ld` is the `parse_jsonld` result (always a dict). -/
def ldGet (ld : Json) (k : List Char) : Option Json :=
  match ld with
  | .obj fields => jlookup k fields
  | _ => none

/-- The author branch of `parse_espn_article_html`: a dict author yields its
    `name`, a non-empty list author yields the first entry's `name` — or
    raises `AttributeError` when that entry is not a dict; every other shape
    leaves the author `None`. -/
def extractAuthor (ld : Json) : Except Unit (Option Json) :=
  match ldGet ld "author".data with
  | some (.obj f) => .ok (jlookup "name".data f)
  | some (.arr (first :: _)) =>
    match first with
    | .obj f => .ok (jlookup "name".data f)
    | _ => .error ()
  | _ => .ok none

/-! ### Date normalization (`datetime.fromisoformat(...).isoformat()`)

Modelled on the grammar the scraper's dates use:
`YYYY-MM-DDTHH:MM:SS` with an optional `+HH:MM`/`-HH:MM` offset; anything
else fails to parse (and the raw value passes through). -/

structure PyDateTime where
  year : Nat
  month : Nat
  day : Nat
  hour : Nat
  minute : Nat
  second : Nat
  tzSign : Option Bool
  tzHour : Nat
  tzMinute : Nat
deriving Repr, DecidableEq

def allDigits (l : List Char) : Bool := l.all isDigitC

def daysInMonth (y m : Nat) : Nat :=
  if m = 2 then if y % 4 = 0 ∧ (y % 100 ≠ 0 ∨ y % 400 = 0) then 29 else 28
  else if m ∈ [4, 6, 9, 11] then 30 else 31

/-- Restricted `datetime.fromisoformat`. -/
def fromIsoformat (s : List Char) : Option PyDateTime :=
  match s with
  | y1 :: y2 :: y3 :: y4 :: '-' :: m1 :: m2 :: '-' :: d1 :: d2 :: 'T' ::
      h1 :: h2 :: ':' :: mi1 :: mi2 :: ':' :: s1 :: s2 :: rest =>
    let nums := [y1, y2, y3, y4, m1, m2, d1, d2, h1, h2, mi1, mi2, s1, s2]
    if allDigits nums then
      let y := digitsToNat [y1, y2, y3, y4]
      let mo := digitsToNat [m1, m2]
      let d := digitsToNat [d1, d2]
      let h := digitsToNat [h1, h2]
      let mi := digitsToNat [mi1, mi2]
      let se := digitsToNat [s1, s2]
      if 1 ≤ mo ∧ mo ≤ 12 ∧ 1 ≤ d ∧ d ≤ daysInMonth y mo ∧
          h ≤ 23 ∧ mi ≤ 59 ∧ se ≤ 59 then
        match rest with
        | [] => some ⟨y, mo, d, h, mi, se, none, 0, 0⟩
        | sign :: o1 :: o2 :: ':' :: o3 :: o4 :: [] =>
          if (sign = '+' ∨ sign = '-') ∧ allDigits [o1, o2, o3, o4] then
            let oh := digitsToNat [o1, o2]
            let om := digitsToNat [o3, o4]
            if oh ≤ 23 ∧ om ≤ 59 then
              some ⟨y, mo, d, h, mi, se, some (sign = '+'), oh, om⟩
            else none
          else none
        | _ => none
      else none
    else none
  | _ => none

/-- Zero-padded decimal digits of `n` to width `w`. -/
def padNat (w n : Nat) : List Char :=
  let ds := (Nat.toDigits 10 n)
  (List.replicate (w - ds.length) '0') ++ ds

/-- `datetime.isoformat()` for the modelled subset. -/
def isoformat (dt : PyDateTime) : List Char :=
  padNat 4 dt.year ++ '-' :: padNat 2 dt.month ++ '-' :: padNat 2 dt.day ++
    'T' :: padNat 2 dt.hour ++ ':' :: padNat 2 dt.minute ++
    ':' :: padNat 2 dt.second ++
    (match dt.tzSign with
     | none => []
     | some pos =>
       (if pos then '+' else '-') :: padNat 2 dt.tzHour ++
         ':' :: padNat 2 dt.tzMinute)

/-- `s.replace("Z", "+00:00")` (every occurrence). -/
def replaceZ : List Char → List Char
  | [] => []
  | 'Z' :: r => '+' :: '0' :: '0' :: ':' :: '0' :: '0' :: replaceZ r
  | c :: r => c :: replaceZ r

/-- The date-normalization block: a truthy date is parsed as ISO-8601 with
    `Z` rewritten; a parse failure (including a non-string date, whose
    `.replace` raises inside the guarded block) passes the raw value
    through. -/
def normalizeDate (dp : Option Json) : Option Json :=
  match dp with
  | some j =>
    if jtruthy j then
      match j with
      | .str s =>
        match fromIsoformat (replaceZ s) with
        | some dt => some (.str (isoformat dt))
        | none => some (.str s)
      | other => some other
    else none
  | none => none

/-! ### Image discovery (`get_abs_url`, `parse_srcset`, the two strategies,
the fallback policy) -/

/-- The directory part of a path: everything through the last `/`, with a
    bare `/` for slash-less paths. -/
def dirPart (p : List Char) : List Char :=
  let kept := (p.reverse.dropWhile fun c => c ≠ '/').reverse
  if kept.isEmpty then ['/'] else kept

/-- `urllib.parse.urljoin`, restricted to the resolutions the scraper
    performs: an empty reference keeps the base, a reference with a scheme
    replaces the URL, `//...` keeps only the base scheme, a rooted path
    replaces the base path, and a relative path replaces the base path's
    last segment.  Query/fragment merging subtleties are out of scope. -/
def urljoin (base rel : List Char) : List Char :=
  if rel.isEmpty then base
  else
    let (rscheme, _) := splitScheme rel
    if ¬ rscheme.isEmpty then rel
    else
      let b := urlparse base
      match rel with
      | '/' :: '/' :: _ => b.scheme ++ (':' :: rel)
      | '/' :: _ => b.scheme ++ "://".data ++ b.netloc ++ rel
      | _ => b.scheme ++ "://".data ++ b.netloc ++ dirPart b.path ++ rel

/-- `get_abs_url`: empty stays empty, protocol-relative URLs get `https:`,
    anything else resolves against the page URL. -/
def get_abs_url (u : List Char) (base : List Char) : List Char :=
  if u.isEmpty then []
  else match u with
    | '/' :: '/' :: _ => "https:".data ++ u
    | _ => urljoin base u

/-- `int(...)` as `parse_srcset` uses it: a non-empty digit string parses,
    anything else raises (`width` stays `None`). -/
def pyIntOpt (l : List Char) : Option Nat :=
  if ¬ l.isEmpty ∧ allDigits l then some (digitsToNat l) else none

/-- `parse_srcset`: split the descriptor list on commas; each part
    whitespace-splits into a URL and an optional `<int>w` width. -/
def parse_srcset (s : List Char) : List (List Char × Option Nat) :=
  if s.isEmpty then []
  else (splitSep ',' s).filterMap fun part =>
    match splitWs (stripL part) with
    | [] => none
    | url :: rest =>
      let width := match rest with
        | w :: _ =>
          if w.getLast? = some 'w' then pyIntOpt w.dropLast else none
        | [] => none
      some (url, width)

/-- `el.get("srcset") or el.get("data-srcset", "")`. -/
def srcsetOf (el : Node) : List Char :=
  match attrGet el "srcset".data with
  | some s => if s.isEmpty then (attrGet el "data-srcset".data).getD [] else s
  | none => (attrGet el "data-srcset".data).getD []

/-- The candidates a single figure contributes: every `<source>`'s srcset
    pairs, then the `<img>`'s srcset pairs, then its plain truthy `src`. -/
def figCandidates (fig : Node) (pageUrl : List Char)
    (alt caption : Option (List Char)) : List ImageCandidate :=
  let img := findTag fig "img".data
  let fromSources := (findAllTags fig ["source".data]).flatMap fun srcEl =>
    (parse_srcset (srcsetOf srcEl)).map fun p =>
      { src := get_abs_url p.1 pageUrl, width := p.2,
        alt := alt, caption := caption }
  let fromImg := match img with
    | none => []
    | some im =>
      ((parse_srcset (srcsetOf im)).map fun p =>
        ({ src := get_abs_url p.1 pageUrl, width := p.2,
           alt := alt, caption := caption } : ImageCandidate)) ++
      (match attrGet im "src".data with
       | some s =>
         if s.isEmpty then []
         else [{ src := get_abs_url s pageUrl, width := none,
                 alt := alt, caption := caption }]
       | none => [])
  fromSources ++ fromImg

/-- Exact-URL dedup keeping the first occurrence (the `seen` set loop). -/
def dedupBySrcAux (seen : List (List Char)) :
    List ImageCandidate → List ImageCandidate
  | [] => []
  | it :: rest =>
    if it.src ∈ seen then dedupBySrcAux seen rest
    else it :: dedupBySrcAux (it.src :: seen) rest

def dedupBySrc (l : List ImageCandidate) : List ImageCandidate :=
  dedupBySrcAux [] l

/-- Strategy A, `extract_inline_photo_images`: figures inside
    `aside.inline.inline-photo` wrappers. -/
def extract_inline_photo_images (doc : List Node) (pageUrl : List Char) :
    List ImageCandidate :=
  let asides := selectAll doc
    (.tagClass "aside".data ["inline".data, "inline-photo".data])
  dedupBySrc <| asides.flatMap fun aside =>
    match findTag aside "figure".data with
    | none => []
    | some fig =>
      let caption := (findTag fig "figcaption".data).map fun c =>
        joinSpace (strippedStrings c)
      let alt := (findTag fig "img".data).bind fun im => attrGet im "alt".data
      figCandidates fig pageUrl alt caption

/-- Strategy B, `extract_captioned_images`: any figure with a truthy
    caption. -/
def extract_captioned_images (doc : List Node) (pageUrl : List Char) :
    List ImageCandidate :=
  let figs := (allNodes doc).filter fun n => tagOf n = some "figure".data
  dedupBySrc <| figs.flatMap fun fig =>
    let captionRaw := (findTag fig "figcaption".data).map fun c =>
      joinSpace (strippedStrings c)
    match captionRaw with
    | none => []
    | some cap =>
      if cap.isEmpty then []
      else
        let alt := (findTag fig "img".data).bind fun im =>
          attrGet im "alt".data
        figCandidates fig pageUrl alt (some cap)

/-- `get_article_images_with_fallback`: Strategy A, else Strategy B, else
    nothing, with the source's strategy labels. -/
def get_article_images_with_fallback (doc : List Node) (pageUrl : List Char) :
    List ImageCandidate × List Char :=
  let imgs := extract_inline_photo_images doc pageUrl
  if ¬ imgs.isEmpty then (imgs, "inline + captioned".data)
  else
    let imgs := extract_captioned_images doc pageUrl
    if ¬ imgs.isEmpty then (imgs, "captioned".data)
    else ([], "none".data)

/-! ### Body extraction and the article assembler -/

/-- The selector list of `parse_espn_article_html`, in source order. -/
def bodySelectors : List Sel :=
  [ .attrIs "data-testid".data "ArticleBody".data,
    .tagAttrIs "section".data "name".data "articleBody".data,
    .classUnder "article".data "article-body".data,
    .tagUnder "main".data "article".data,
    .tagClass "div".data ["article-body".data] ]

/-- The two lower-cased prefixes of the editor's-note filter (curly and
    straight apostrophe). -/
def edNoteCurly : List Char := "editor\u2019s note".data
def edNoteStraight : List Char := "editor\x27s note".data

def isEditorsNote (t : List Char) : Bool :=
  edNoteCurly.isPrefixOf (lowerL t) ∨ edNoteStraight.isPrefixOf (lowerL t)

/-- The paragraph loop: text of every `p`/`li` under the body container, in
    document order, keeping truthy lines that are not editor's notes. -/
def extractParagraphs (doc : List Node) : List (List Char) :=
  match select_first_element doc bodySelectors with
  | none => []
  | some container =>
    ((findAllTags container ["p".data, "li".data]).map fun p =>
        extract_text (some p)).filter fun t =>
      ¬ t.isEmpty ∧ ¬ isEditorsNote t

/-- The assembled article record (`absent` fields are `none`). -/
structure ArticleRecord where
  title : Option Json
  author : Option Json
  published : Option Json
  paragraphs : List (List Char)
  images : List ImageCandidate
deriving Repr

/-- `parse_espn_article_html` over a parsed document: JSON-LD metadata with
    meta-tag fallbacks, body paragraphs, discovered-and-deduplicated images.
    The only uncaught exception path is the author extraction
    (`ld["author"][0].get("name")` on a non-dict first entry). -/
def parse_espn_article_html (doc : List Node) (pageUrl : List Char) :
    Except Unit ArticleRecord :=
  let ld := parse_jsonld (docScripts doc)
  let headline0 := ldGet ld "headline".data
  let datePublished0 := ldGet ld "datePublished".data
  match extractAuthor ld with
  | .error e => .error e
  | .ok author =>
    let headline : Option Json :=
      match headline0 with
      | some j =>
        if jtruthy j then some j
        else (metaContent doc "og:title".data).map Json.str
      | none => (metaContent doc "og:title".data).map Json.str
    let datePublished : Option Json :=
      match datePublished0 with
      | some j =>
        if jtruthy j then some j
        else (metaContent doc "article:published_time".data).map Json.str
      | none => (metaContent doc "article:published_time".data).map Json.str
    let paragraphs := extractParagraphs doc
    let imgsRaw := (get_article_images_with_fallback doc pageUrl).1
    let images := dedupe_keep_largest imgsRaw
    .ok { title := headline, author := author,
          published := normalizeDate datePublished,
          paragraphs := paragraphs, images := images }

/-! ### Concrete documents and servers used by the claim theorems -/

/-- The end-to-end scenario document: one JSON-LD `NewsArticle` block and one
    inline-photo figure whose image carries a two-entry `srcset`. -/
def c5doc : List Node :=
  [ .elem "html".data [] [
      .elem "head".data [] [
        .scriptLd (some (.obj
          [("@type".data, .str "NewsArticle".data),
           ("headline".data, .str "Team Wins Big".data),
           ("datePublished".data, .str "2024-01-05T12:00:00Z".data)])) ],
      .elem "body".data [] [
        .elem "aside".data [("class".data, "inline inline-photo".data)] [
          .elem "figure".data [] [
            .elem "img".data
              [("srcset".data,
                "a_640x360.jpg 640w, a_1280x720.jpg 1280w".data)] [] ] ] ] ] ]

def c5pageUrl : List Char := "https://www.espn.com/nfl/story".data

/-- A well-formed document whose JSON-LD author is a list with a plain-string
    first entry: `ld["author"][0].get("name")` raises `AttributeError`. -/
def authorListStrDoc : List Node :=
  [ .scriptLd (some (.obj
      [("@type".data, .str "NewsArticle".data),
       ("headline".data, .str "T".data),
       ("author".data, .arr [.str "Alice".data])])) ]

/-- A document whose JSON-LD author is a plain string. -/
def authorStrDoc : List Node :=
  [ .scriptLd (some (.obj
      [("@type".data, .str "NewsArticle".data),
       ("author".data, .str "Alice".data)])) ]

/-- A server answering three 503s and then 200s. -/
def srv503x3 : Nat → WireOutcome :=
  fun n => if n < 3 then .resp 503 "err".data else .resp 200 "good".data

/-- A server answering four 503s and then 200s: the transport budget of one
    `session.get` is exactly exceeded. -/
def srv503x4 : Nat → WireOutcome :=
  fun n => if n < 4 then .resp 503 "err".data else .resp 200 "good".data

/-- A server that always answers 503. -/
def srvAll503 : Nat → WireOutcome := fun _ => .resp 503 "err".data

/-- A server whose every request fails at the connection level. -/
def srvAllNetErr : Nat → WireOutcome := fun _ => .netErr

/-- A server answering 403 to the first request and 200 afterwards (the AMP
    retry succeeds). -/
def srv403amp : Nat → WireOutcome :=
  fun n => if n = 0 then .resp 403 "blocked".data else .resp 200 "amp body".data

/-- A server alternating 403 (plain URL) and 404 (AMP variant). -/
def srv403ampFail : Nat → WireOutcome :=
  fun n => if n % 2 = 0 then .resp 403 "blocked".data else .resp 404 "nope".data

def plainUrl : List Char := "https://www.espn.com/story".data

/-- A URL whose query holds two bindings of the same key. -/
def dupKeyUrl : List Char := "https://h/p?a=1&a=2".data

/-- A body with an editor's note (straight apostrophe), an upper-case curly
    variant, and an otherwise-similar paragraph with different leading
    text. -/
def edNoteDoc : List Node :=
  [ .elem "div".data [("class".data, "article-body".data)] [
      .elem "p".data [] [.textN "Editor\x27s Note: Hello".data],
      .elem "p".data [] [.textN "EDITOR\u2019S NOTE: Bye".data],
      .elem "p".data [] [.textN "Update: Hello".data] ] ]

/-- The article element of the selector-order document. -/
def c8articleNode : Node :=
  .elem "article".data [] [ .elem "p".data [] [.textN "In main article".data] ]

/-- A document matching both `main article` and `div.article-body` (the
    latter outside any `article`), so the two selector orders disagree. -/
def c8doc : List Node :=
  [ .elem "main".data [] [c8articleNode],
    .elem "div".data [("class".data, "article-body".data)] [
      .elem "p".data [] [.textN "In div body".data] ] ]

/-- Modelled from the spec: the selector order the claim asserts — the
    common class-name selectors before the `main article` fallback, which
    the claim calls final. -/
def claimedBodySelectors : List Sel :=
  [ .attrIs "data-testid".data "ArticleBody".data,
    .tagAttrIs "section".data "name".data "articleBody".data,
    .classUnder "article".data "article-body".data,
    .tagClass "div".data ["article-body".data],
    .tagUnder "main".data "article".data ]

/-- A concrete candidate list with two canonical groups: three resize
    variants of one espncdn photo (widths 600, inferred 800, and a tying
    explicit 800) and one unrelated image. -/
def imgsC1 : List ImageCandidate :=
  [ { src := "https://a.espncdn.com/photo/pic_600x400.jpg".data,
      width := some 600, alt := none, caption := none },
    { src := "https://x.com/other.png".data,
      width := none, alt := none, caption := none },
    { src := "https://a.espncdn.com/photo/pic_800x533.jpg".data,
      width := none, alt := none, caption := none },
    { src := "https://a.espncdn.com/photo/pic.jpg".data,
      width := some 800, alt := none, caption := none } ]

/-- The canonical key shared by the three espncdn variants of `imgsC1`. -/
def c1key : List Char := "a.espncdn.com:/photo/pic.jpg".data

/-! ## Claim theorems -/

/-- C5: on the scenario document (one JSON-LD `NewsArticle` with headline
    `Team Wins Big` and `datePublished` `2024-01-05T12:00:00Z`, plus an
    inline-photo figure with srcset `a_640x360.jpg 640w, a_1280x720.jpg
    1280w`), the assembler produces exactly that title, the date with the `Z`
    suffix normalized to `+00:00`, and exactly one image entry, the
    1280-wide `a_1280x720.jpg` variant resolved against the page URL. -/
theorem assemble_end_to_end_scenario :
    parse_espn_article_html c5doc c5pageUrl = .ok
      { title := some (.str "Team Wins Big".data),
        author := none,
        published := some (.str "2024-01-05T12:00:00+00:00".data),
        paragraphs := [],
        images := [{ src := "https://www.espn.com/nfl/a_1280x720.jpg".data,
                     width := some 1280, alt := none, caption := none }] } := by
  rfl

/-- C9: the extractors are not total — on a well-formed document whose
    JSON-LD author field is a list whose first entry is a plain string,
    `parse_espn_article_html` raises `AttributeError`
    (`ld["author"][0].get("name")`) instead of producing a record with an
    absent author. -/
theorem assemble_raises_on_author_list_of_strings :
    parse_espn_article_html authorListStrDoc [] = .error () := by
  rfl

/-- C10: whenever the first Article-family JSON-LD block carries a plain
    string author, the assembled record's author is absent: the author
    branch handles only the dict and list shapes. -/
theorem author_plain_string_is_absent (doc : List Node) (pageUrl s : List Char)
    (h : ldGet (parse_jsonld (docScripts doc)) "author".data = some (.str s)) :
    ∃ rec, parse_espn_article_html doc pageUrl = .ok rec ∧ rec.author = none := by
  have hA : extractAuthor (parse_jsonld (docScripts doc)) = .ok none := by
    unfold extractAuthor
    rw [h]
  simp only [parse_espn_article_html, hA]
  exact ⟨_, rfl, rfl⟩

/-- C10 witness: the string-author document assembles with an absent
    author. -/
theorem author_plain_string_is_absent_witness :
    ∃ rec, parse_espn_article_html authorStrDoc [] = .ok rec ∧
      rec.author = none :=
  author_plain_string_is_absent authorStrDoc [] "Alice".data rfl

/-- Helper: the attempt loop sleeps `backoff * 2 ^ attempt` once per
    consumed retry, so its sleep trace is an initial segment of that
    geometric sequence. -/
theorem getLinkLoop_sleep_trace (server : Nat → WireOutcome) (url : List Char)
    (backoff : ℚ) : ∀ rem attempt n, ∃ k, k ≤ rem ∧
    (getLinkLoop server url backoff rem attempt n).2.2 =
      (List.range k).map fun i => backoff * 2 ^ (attempt + i) := by
  intro rem
  induction rem with
  | zero =>
    intro attempt n
    refine ⟨0, Nat.le_refl 0, ?_⟩
    simp only [getLinkLoop]
    rcases hA : attemptGet server url n with ⟨r, n'⟩
    cases r <;> simp
  | succ rem ih =>
    intro attempt n
    simp only [getLinkLoop]
    rcases hA : attemptGet server url n with ⟨r, n'⟩
    cases r with
    | ok resp => exact ⟨0, Nat.zero_le _, by simp⟩
    | error e =>
      obtain ⟨k, hk, htr⟩ := ih (attempt + 1) n'
      refine ⟨k + 1, by omega, ?_⟩
      simp only [htr, List.range_succ_eq_map, List.map_cons, List.map_map]
      congr 1
      apply List.map_congr_left
      intro i _
      show backoff * 2 ^ (attempt + 1 + i) = backoff * 2 ^ (attempt + (i + 1))
      congr 2
      omega

/-- C4 counterexample: four consecutive transport-level 503s exceed the
    per-call transport budget, but `get_link` does not raise `HttpError`:
    the `raise_for_status` exception is caught by the network-level loop,
    which retries the whole call and returns the following 200. -/
theorem four_503s_then_200_returns_ok :
    get_link srv503x4 plainUrl =
      (.ok { status := 200, body := "good".data, url := plainUrl }, 5,
        [3 / 4]) := by
  have h : get_link srv503x4 plainUrl =
      (.ok { status := 200, body := "good".data, url := plainUrl }, 5,
        [3 / 4 * 2 ^ 0]) := by rfl
  rw [h]
  norm_num

/-- C4 (amended): one `session.get` retries 429/500/502/503/504 up to 3
    times at the transport layer, the network-level loop runs up to 2
    additional attempts with exponential backoff `0.75 * 2 ^ attempt`, and
    the layers compose with transport retries nested inside each attempt:
    3 consecutive 503s followed by a 200 yield the 200 within one attempt
    (4 wire requests, no sleeps); an unbroken run of 503s exhausts
    3 × 4 = 12 wire requests, sleeps `[0.75, 1.5]`, and raises `HttpError`
    503; an unbroken run of connection failures likewise exhausts 12 wire
    requests before `NetworkError`; and every run's sleep trace is an
    initial segment of `[0.75 * 2 ^ 0, 0.75 * 2 ^ 1]`. -/
theorem retry_layers_compose :
    get_link srv503x3 plainUrl =
      (.ok { status := 200, body := "good".data, url := plainUrl }, 4, []) ∧
    get_link srvAll503 plainUrl =
      (.error (.http 503), 12, [3 / 4, 3 / 2]) ∧
    get_link srvAllNetErr plainUrl =
      (.error .network, 12, [3 / 4, 3 / 2]) ∧
    ∀ server url, (get_link server url).2.2 <+: [(3 : ℚ) / 4, 3 / 2] := by
  refine ⟨by rfl, ?_, ?_, ?_⟩
  · have h : get_link srvAll503 plainUrl =
        (.error (.http 503), 12, [3 / 4 * 2 ^ 0, 3 / 4 * 2 ^ 1]) := by rfl
    rw [h]
    norm_num
  · have h : get_link srvAllNetErr plainUrl =
        (.error .network, 12, [3 / 4 * 2 ^ 0, 3 / 4 * 2 ^ 1]) := by rfl
    rw [h]
    norm_num
  · intro server url
    obtain ⟨k, hk, htr⟩ := getLinkLoop_sleep_trace server url (3 / 4) 2 0 0
    show (getLinkLoop server url (3 / 4) 2 0 0).2.2 <+: _
    rw [htr]
    interval_cases k
    · exact List.nil_prefix
    · refine ⟨[3 / 2], ?_⟩
      simp [List.range_succ]
    · refine ⟨[], ?_⟩
      simp [List.range_succ]
      norm_num

/-! ### Percent-coding roundtrip lemmas (towards the `add_amp` theorem) -/

/-- Helper: `unquoteAux` on the empty string. -/
theorem unquoteAux_nil (f : Nat) : unquoteAux f [] = [] := by
  cases f <;> rfl

/-- Helper: one `unquoteAux` step on `+`. -/
theorem unquoteAux_plus (f : Nat) (r : List Char) :
    unquoteAux (f + 1) ('+' :: r) = ' ' :: unquoteAux f r := rfl

/-- Helper: one `unquoteAux` step on a plain character. -/
theorem unquoteAux_plain (f : Nat) (c : Char) (r : List Char)
    (h1 : c ≠ '+') (h2 : c ≠ '%') :
    unquoteAux (f + 1) (c :: r) = c :: unquoteAux f r := by
  simp [unquoteAux, h1, h2]

/-- Helper: one `unquoteAux` step on `%` followed by two characters. -/
theorem unquoteAux_pct (f : Nat) (a b : Char) (r : List Char) :
    unquoteAux (f + 1) ('%' :: a :: b :: r) =
      match hexVal a, hexVal b with
      | some x, some y => Char.ofNat (16 * x + y) :: unquoteAux f r
      | _, _ => '%' :: unquoteAux f (a :: b :: r) := rfl

/-- Helper: one `unquoteAux` step on a short `%` tail. -/
theorem unquoteAux_pct_short (f : Nat) (r : List Char) (h : r.length ≤ 1) :
    unquoteAux (f + 1) ('%' :: r) = '%' :: unquoteAux f r := by
  match r, h with
  | [], _ => rfl
  | [a], _ => rfl

/-- Helper: `unquoteAux` is fuel-irrelevant once the fuel covers the
    string. -/
theorem unquoteAux_fuel (f : Nat) : ∀ (g : Nat) (l : List Char),
    l.length ≤ f → l.length ≤ g → unquoteAux f l = unquoteAux g l := by
  induction f with
  | zero =>
    intro g l hf _
    have : l = [] := List.eq_nil_of_length_eq_zero (Nat.le_zero.mp hf)
    subst this
    cases g <;> rfl
  | succ f ih =>
    intro g l hf hg
    cases l with
    | nil => rw [unquoteAux_nil, unquoteAux_nil]
    | cons c r =>
      cases g with
      | zero => exact absurd hg (by simp)
      | succ g =>
        simp only [List.length_cons, Nat.add_le_add_iff_right] at hf hg
        by_cases hplus : c = '+'
        · subst hplus
          rw [unquoteAux_plus, unquoteAux_plus, ih g r hf hg]
        · by_cases hpct : c = '%'
          · subst hpct
            match r, hf, hg with
            | [], _, _ =>
              rw [unquoteAux_pct_short f _ (by simp),
                unquoteAux_pct_short g _ (by simp), unquoteAux_nil,
                unquoteAux_nil]
            | [a], hf, hg =>
              rw [unquoteAux_pct_short f _ (by simp),
                unquoteAux_pct_short g _ (by simp), ih g [a] hf hg]
            | a :: b :: r', hf, hg =>
              rw [unquoteAux_pct, unquoteAux_pct]
              cases ha : hexVal a <;> cases hb : hexVal b <;>
                simp only [ha, hb]
              · rw [ih g (a :: b :: r') hf hg]
              · rw [ih g (a :: b :: r') hf hg]
              · rw [ih g (a :: b :: r') hf hg]
              · rw [ih g r' (by simp at hf ⊢; omega)
                  (by simp at hg ⊢; omega)]
          · rw [unquoteAux_plain f c r hplus hpct,
              unquoteAux_plain g c r hplus hpct, ih g r hf hg]

/-- Helper: decoding a character neither `+` nor `%` passes it through. -/
theorem unquotePlus_cons_plain (c : Char) (r : List Char)
    (h1 : c ≠ '+') (h2 : c ≠ '%') :
    unquotePlus (c :: r) = c :: unquotePlus r := by
  show unquoteAux (r.length + 1) (c :: r) = c :: unquoteAux r.length r
  simp [unquoteAux, h1, h2]

/-- Helper: decoding `+` yields a space. -/
theorem unquotePlus_cons_plus (r : List Char) :
    unquotePlus ('+' :: r) = ' ' :: unquotePlus r := by
  show unquoteAux (r.length + 1) ('+' :: r) = ' ' :: unquoteAux r.length r
  simp [unquoteAux]

/-- Helper: decoding a valid `%XY` escape. -/
theorem unquotePlus_escape (a b : Char) (x y : Nat) (r : List Char)
    (ha : hexVal a = some x) (hb : hexVal b = some y) :
    unquotePlus ('%' :: a :: b :: r) =
      Char.ofNat (16 * x + y) :: unquotePlus r := by
  show unquoteAux (r.length + 2 + 1) ('%' :: a :: b :: r) = _
  rw [unquoteAux_pct]
  simp only [ha, hb]
  rw [unquoteAux_fuel (r.length + 2) r.length r (by omega) (Nat.le_refl _)]
  rfl

/-- Helper: `hexDig` inverts through `hexVal` below 16. -/
theorem hexVal_hexDig (m : Nat) (h : m < 16) : hexVal (hexDig m) = some m := by
  interval_cases m <;> decide

/-- Helper: decoding an encoded character prepends it. -/
theorem unquotePlus_quoteC (c : Char) (h : c.toNat < 256) (rest : List Char) :
    unquotePlus (quoteC c ++ rest) = c :: unquotePlus rest := by
  by_cases hs : isSafeC c
  · have h1 : c ≠ '+' := by rintro rfl; exact absurd hs (by decide)
    have h2 : c ≠ '%' := by rintro rfl; exact absurd hs (by decide)
    simp only [quoteC, if_pos hs, List.cons_append, List.nil_append]
    exact unquotePlus_cons_plain c rest h1 h2
  · by_cases hsp : c = ' '
    · subst hsp
      simp only [quoteC, if_neg hs, if_pos rfl, List.cons_append,
        List.nil_append]
      exact unquotePlus_cons_plus rest
    · simp only [quoteC, if_neg hs, if_neg hsp, List.cons_append,
        List.nil_append]
      rw [unquotePlus_escape _ _ _ _ _
        (hexVal_hexDig _ (Nat.mod_lt _ (by omega)))
        (hexVal_hexDig _ (Nat.mod_lt _ (by omega)))]
      congr 1
      have harith : 16 * (c.toNat / 16 % 16) + c.toNat % 16 = c.toNat := by
        omega
      rw [harith, Char.ofNat_toNat]

/-- Helper: decoding an encoded string prepends it. -/
theorem unquotePlus_quotePlus_append (l : List Char)
    (h : ∀ c ∈ l, c.toNat < 256) (rest : List Char) :
    unquotePlus (quotePlus l ++ rest) = l ++ unquotePlus rest := by
  induction l with
  | nil => simp [quotePlus]
  | cons c l ih =>
    have : quotePlus (c :: l) = quoteC c ++ quotePlus l := by
      simp [quotePlus]
    rw [this, List.append_assoc, unquotePlus_quoteC c (h c (by simp)),
      ih (fun c hc => h c (by simp [hc]))]
    rfl

/-- Helper: decoding an encoded string recovers it. -/
theorem unquotePlus_quotePlus (l : List Char) (h : ∀ c ∈ l, c.toNat < 256) :
    unquotePlus (quotePlus l) = l := by
  have h2 := unquotePlus_quotePlus_append l h []
  rw [List.append_nil] at h2
  simpa [show unquotePlus ([] : List Char) = [] from rfl] using h2

/-- Helper: `hexDig` below 16 is a hex digit, not a URL delimiter. -/
theorem hexDig_not_delim (m : Nat) (h : m < 16) :
    hexDig m ≠ '&' ∧ hexDig m ≠ '=' ∧ hexDig m ≠ '#' ∧ hexDig m ≠ '?' := by
  interval_cases m <;> decide

/-- Helper: encoded output never contains a URL delimiter. -/
theorem quoteC_not_delim (c : Char) :
    ∀ c' ∈ quoteC c, c' ≠ '&' ∧ c' ≠ '=' ∧ c' ≠ '#' ∧ c' ≠ '?' := by
  intro c' hc'
  unfold quoteC at hc'
  split at hc'
  · rename_i hs
    simp only [List.mem_singleton] at hc'
    subst hc'
    refine ⟨?_, ?_, ?_, ?_⟩ <;> rintro rfl <;> exact absurd hs (by decide)
  · split at hc'
    · simp only [List.mem_singleton] at hc'
      subst hc'
      decide
    · simp only [List.mem_cons, List.not_mem_nil, or_false] at hc'
      rcases hc' with rfl | rfl | rfl
      · decide
      · exact hexDig_not_delim _ (Nat.mod_lt _ (by omega))
      · exact hexDig_not_delim _ (Nat.mod_lt _ (by omega))

/-- Helper: `quotePlus` output never contains a URL delimiter. -/
theorem quotePlus_not_delim (l : List Char) :
    ∀ c' ∈ quotePlus l, c' ≠ '&' ∧ c' ≠ '=' ∧ c' ≠ '#' ∧ c' ≠ '?' := by
  intro c' hc'
  rcases List.mem_flatMap.mp hc' with ⟨c, _, hmem⟩
  exact quoteC_not_delim c c' hmem

/-- Helper: a character's encoding is never empty. -/
theorem quoteC_ne_nil (c : Char) : quoteC c ≠ [] := by
  unfold quoteC
  split
  · simp
  · split <;> simp

/-- Helper: a non-empty string's encoding is non-empty. -/
theorem quotePlus_ne_nil (l : List Char) (h : l ≠ []) : quotePlus l ≠ [] := by
  cases l with
  | nil => exact absurd rfl h
  | cons c r =>
    show quoteC c ++ quotePlus r ≠ []
    simp [quoteC_ne_nil c]

/-- Helper: splitting a separator-free string yields one chunk. -/
theorem splitSep_no_sep (sep : Char) (l : List Char) (h : sep ∉ l) :
    splitSep sep l = [l] := by
  induction l with
  | nil => rfl
  | cons c r ih =>
    have hc : ¬ c = sep := fun he => h (he ▸ List.mem_cons_self c r)
    have hr : sep ∉ r := fun hm => h (List.mem_cons_of_mem c hm)
    simp only [splitSep, ih hr, if_neg hc]

/-- Helper: splitting at the leading separator occurrence. -/
theorem splitSep_append_sep (sep : Char) (a b : List Char) (h : sep ∉ a) :
    splitSep sep (a ++ sep :: b) = a :: splitSep sep b := by
  induction a with
  | nil => simp [splitSep]
  | cons c a ih =>
    have hc : ¬ c = sep := fun he => h (he ▸ List.mem_cons_self c a)
    have ha : sep ∉ a := fun hm => h (List.mem_cons_of_mem c hm)
    have hne : splitSep sep (a ++ sep :: b) = a :: splitSep sep b := ih ha
    simp only [List.cons_append, splitSep, List.append_eq, hne, if_neg hc]

/-- Helper: `splitFirst` at the leading separator occurrence. -/
theorem splitFirst_append_sep (sep : Char) (a b : List Char) (h : sep ∉ a) :
    splitFirst sep (a ++ sep :: b) = (a, some b) := by
  induction a with
  | nil => simp [splitFirst]
  | cons c a ih =>
    have hc : ¬ c = sep := fun he => h (he ▸ List.mem_cons_self c a)
    have ha : sep ∉ a := fun hm => h (List.mem_cons_of_mem c hm)
    simp only [List.cons_append, splitFirst, List.append_eq, ih ha, if_neg hc]

/-- Helper: the `urlencode` fold is an append of `&`-prefixed chunks. -/
theorem encodeFold (t : List (List Char)) : ∀ acc : List Char,
    t.foldl (fun acc x => acc ++ ('&' :: x)) acc =
      acc ++ t.flatMap (fun x => '&' :: x) := by
  induction t with
  | nil => intro acc; simp
  | cons x t ih =>
    intro acc
    simp only [List.foldl_cons, ih, List.flatMap_cons, List.append_assoc]

/-- Helper: decoding an encoded dict recovers it exactly (values non-empty,
    characters single-byte). -/
theorem parseQsl_urlencodeD (d : List (List Char × List Char))
    (hv : ∀ p ∈ d, p.2 ≠ [])
    (hc : ∀ p ∈ d, (∀ c ∈ p.1, c.toNat < 256) ∧ ∀ c ∈ p.2, c.toNat < 256) :
    parseQsl (urlencodeD d) = d := by
  have hu : ∀ (x : List Char × List Char) (ts : List (List Char × List Char)),
      urlencodeD (x :: ts) = (quotePlus x.1 ++ ('=' :: quotePlus x.2)) ++
        (ts.map fun r => quotePlus r.1 ++ ('=' :: quotePlus r.2)).flatMap
          (fun s => '&' :: s) := by
    intro x ts
    show (ts.map _).foldl _ _ = _
    exact encodeFold _ _
  induction d with
  | nil => rfl
  | cons p t ih =>
    have hchunk : ∀ q : List Char × List Char,
        '&' ∉ quotePlus q.1 ++ ('=' :: quotePlus q.2) := by
      intro q hm
      rcases List.mem_append.mp hm with h1 | h2
      · exact (quotePlus_not_delim _ _ h1).1 rfl
      · simp only [List.mem_cons] at h2
        rcases h2 with he | h3
        · exact absurd he (by decide)
        · exact (quotePlus_not_delim _ _ h3).1 rfl
    have hstep : ∀ acc : List (List Char × List Char),
        qslStep (quotePlus p.1 ++ ('=' :: quotePlus p.2)) acc = p :: acc := by
      intro acc
      have heq : '=' ∉ quotePlus p.1 := fun hm =>
        (quotePlus_not_delim _ _ hm).2.1 rfl
      unfold qslStep
      rw [if_neg (by simp), splitFirst_append_sep _ _ _ heq]
      have hvne : quotePlus p.2 ≠ [] :=
        quotePlus_ne_nil _ (hv p (List.mem_cons_self p t))
      have h1 := unquotePlus_quotePlus p.1 (hc p (List.mem_cons_self p t)).1
      have h2 := unquotePlus_quotePlus p.2 (hc p (List.mem_cons_self p t)).2
      cases hq : quotePlus p.2 with
      | nil => exact absurd hq hvne
      | cons x xs =>
        show (unquotePlus (quotePlus p.1), unquotePlus (x :: xs)) :: acc
          = p :: acc
        rw [← hq, h1, h2]
    have iht := ih (fun q hq => hv q (List.mem_cons_of_mem p hq))
      (fun q hq => hc q (List.mem_cons_of_mem p hq))
    cases t with
    | nil =>
      have hs : splitSep '&' (urlencodeD [p]) =
          [quotePlus p.1 ++ ('=' :: quotePlus p.2)] := by
        rw [hu p [], List.map_nil, List.flatMap_nil, List.append_nil]
        exact splitSep_no_sep _ _ (hchunk p)
      show (splitSep '&' (urlencodeD [p])).foldr qslStep [] = [p]
      rw [hs, List.foldr_cons, List.foldr_nil]
      exact hstep []
    | cons q t' =>
      have hs : splitSep '&' (urlencodeD (p :: q :: t')) =
          (quotePlus p.1 ++ ('=' :: quotePlus p.2)) ::
            splitSep '&' (urlencodeD (q :: t')) := by
        have henc : urlencodeD (p :: q :: t') =
            (quotePlus p.1 ++ ('=' :: quotePlus p.2)) ++
              ('&' :: urlencodeD (q :: t')) := by
          rw [hu p (q :: t'), hu q t']
          simp [List.flatMap_cons]
        rw [henc]
        exact splitSep_append_sep _ _ _ (hchunk p)
      show (splitSep '&' (urlencodeD (p :: q :: t'))).foldr qslStep [] = p :: q :: t'
      rw [hs, List.foldr_cons]
      have hrec : (splitSep '&' (urlencodeD (q :: t'))).foldr qslStep [] = q :: t' :=
        iht
      rw [hrec]
      exact hstep (q :: t')

/-! ### URL split/join lemmas -/

/-- Helper: a run of satisfying characters stops exactly at the first
    non-satisfying one. -/
theorem takeRun_append (p : Char → Bool) (a : List Char) (x : Char)
    (rest : List Char) (ha : ∀ c ∈ a, p c = true) (hx : p x = false) :
    takeRun p (a ++ x :: rest) = a := by
  induction a with
  | nil => simp [takeRun, hx]
  | cons c a ih =>
    have hc : p c = true := ha c (List.mem_cons_self c a)
    simp only [List.cons_append, takeRun, List.append_eq, hc, if_true]
    rw [ih (fun d hd => ha d (List.mem_cons_of_mem c hd))]

/-- Helper: a run over an entirely satisfying string takes all of it. -/
theorem takeRun_all (p : Char → Bool) (a : List Char)
    (ha : ∀ c ∈ a, p c = true) : takeRun p a = a := by
  induction a with
  | nil => rfl
  | cons c a ih =>
    have hc : p c = true := ha c (List.mem_cons_self c a)
    simp only [takeRun, hc, if_pos]
    rw [ih (fun d hd => ha d (List.mem_cons_of_mem c hd))]

/-- Helper: `splitFirst` on a separator-free string. -/
theorem splitFirst_no_sep (sep : Char) (l : List Char) (h : sep ∉ l) :
    splitFirst sep l = (l, none) := by
  induction l with
  | nil => rfl
  | cons c r ih =>
    have hc : ¬ c = sep := fun he => h (he ▸ List.mem_cons_self c r)
    have hr : sep ∉ r := fun hm => h (List.mem_cons_of_mem c hm)
    simp only [splitFirst, ih hr, if_neg hc]

/-- Helper: `splitSep` never returns an empty chunk list. -/
theorem splitSep_ne_nil (sep : Char) (l : List Char) :
    splitSep sep l ≠ [] := by
  induction l with
  | nil => simp [splitSep]
  | cons c r ih =>
    by_cases hc : c = sep
    · simp [splitSep, hc]
    · cases hrest : splitSep sep r with
      | nil => exact absurd hrest ih
      | cons h t => simp [splitSep, hrest, hc]

/-- Helper: every character of every chunk comes from the split string. -/
theorem mem_of_mem_splitSep (sep : Char) (l : List Char) :
    ∀ ch ∈ splitSep sep l, ∀ c ∈ ch, c ∈ l := by
  induction l with
  | nil =>
    intro ch hch c hc
    simp only [splitSep, List.mem_singleton] at hch
    subst hch
    cases hc
  | cons d r ih =>
    intro ch hch c hc
    by_cases hd : d = sep
    · simp only [splitSep, hd, eq_self_iff_true, if_true, List.mem_cons] at hch
      rcases hch with hch0 | hch
      · subst hch0
        cases hc
      · exact List.mem_cons_of_mem d (ih ch hch c hc)
    · cases hrest : splitSep sep r with
      | nil => exact absurd hrest (splitSep_ne_nil sep r)
      | cons h t =>
        simp only [splitSep, hrest, if_neg hd, List.mem_cons] at hch
        rcases hch with hch0 | hch
        · subst hch0
          rcases List.mem_cons.mp hc with hc1 | hc2
          · subst hc1
            exact List.mem_cons_self c r
          · exact List.mem_cons_of_mem d
              (ih h (hrest ▸ List.mem_cons_self h t) c hc2)
        · exact List.mem_cons_of_mem d
            (ih ch (hrest ▸ List.mem_cons_of_mem h hch) c hc)

/-- Helper: both components of `splitFirst` come from the input. -/
theorem mem_of_mem_splitFirst (sep : Char) (l : List Char) :
    (∀ c ∈ (splitFirst sep l).1, c ∈ l) ∧
      (∀ b, (splitFirst sep l).2 = some b → ∀ c ∈ b, c ∈ l) := by
  induction l with
  | nil =>
    constructor
    · intro c hc
      cases hc
    · intro b hb
      cases hb
  | cons d r ih =>
    by_cases hd : d = sep
    · subst hd
      constructor
      · intro c hc
        simp only [splitFirst, if_pos rfl] at hc
        cases hc
      · intro b hb c hc
        simp only [splitFirst, if_pos rfl] at hb
        cases hb
        exact List.mem_cons_of_mem d hc
    · constructor
      · intro c hc
        simp only [splitFirst, if_neg hd] at hc
        rcases List.mem_cons.mp hc with hc1 | hc2
        · subst hc1
          exact List.mem_cons_self c r
        · exact List.mem_cons_of_mem d (ih.1 c hc2)
      · intro b hb c hc
        simp only [splitFirst, if_neg hd] at hb
        exact List.mem_cons_of_mem d (ih.2 b hb c hc)

/-- Helper: hex digits decode below 16. -/
theorem hexVal_lt (c : Char) (x : Nat) (h : hexVal c = some x) : x < 16 := by
  unfold hexVal at h
  split_ifs at h with h1 h2 h3 <;> (injection h with h; omega)

/-- Helper: `Char.ofNat` below 256 round-trips through `toNat`. -/
theorem toNat_ofNat_lt (n : Nat) (h : n < 256) : (Char.ofNat n).toNat = n := by
  have hv : n.isValidChar := Or.inl (by omega)
  simp [Char.ofNat, hv, Char.ofNatAux, Char.toNat, UInt32.toNat,
    BitVec.toNat_ofNatLt]

/-- Helper: decoding keeps characters below 256 when the input is. -/
theorem unquoteAux_lt_256 (f : Nat) : ∀ l : List Char,
    (∀ c ∈ l, c.toNat < 256) → ∀ c ∈ unquoteAux f l, c.toNat < 256 := by
  induction f with
  | zero => intro l hl c hc; exact hl c hc
  | succ f ih =>
    intro l hl c hc
    cases l with
    | nil => cases hc
    | cons d r =>
      have hd := hl d (List.mem_cons_self d r)
      have hr : ∀ c ∈ r, c.toNat < 256 :=
        fun c h => hl c (List.mem_cons_of_mem d h)
      by_cases hplus : d = '+'
      · subst hplus
        rw [unquoteAux_plus] at hc
        rcases List.mem_cons.mp hc with hc1 | hc2
        · subst hc1; decide
        · exact ih r hr c hc2
      · by_cases hpct : d = '%'
        · subst hpct
          match r, hr with
          | [], hr =>
            rw [unquoteAux_pct_short f _ (by simp), unquoteAux_nil] at hc
            rcases List.mem_cons.mp hc with hc1 | hc2
            · subst hc1; decide
            · cases hc2
          | [a], hr =>
            rw [unquoteAux_pct_short f _ (by simp)] at hc
            rcases List.mem_cons.mp hc with hc1 | hc2
            · subst hc1; decide
            · exact ih [a] hr c hc2
          | a :: b :: r', hr =>
            rw [unquoteAux_pct] at hc
            have hr' : ∀ c ∈ r', c.toNat < 256 :=
              fun c h => hr c (by simp [h])
            cases ha : hexVal a with
            | none =>
              simp only [ha] at hc
              rcases List.mem_cons.mp hc with hc1 | hc2
              · subst hc1; decide
              · exact ih _ hr c hc2
            | some x =>
              cases hb : hexVal b with
              | none =>
                simp only [ha, hb] at hc
                rcases List.mem_cons.mp hc with hc1 | hc2
                · subst hc1; decide
                · exact ih _ hr c hc2
              | some y =>
                simp only [ha, hb] at hc
                rcases List.mem_cons.mp hc with hc1 | hc2
                · subst hc1
                  have hx := hexVal_lt a x ha
                  have hy := hexVal_lt b y hb
                  rw [toNat_ofNat_lt (16 * x + y) (by omega)]
                  omega
                · exact ih _ hr' c hc2
        · rw [unquoteAux_plain f d r hplus hpct] at hc
          rcases List.mem_cons.mp hc with hc1 | hc2
          · subst hc1; exact hd
          · exact ih r hr c hc2

/-- Helper: decoding a non-empty string is non-empty. -/
theorem unquotePlus_cons_ne_nil (c : Char) (r : List Char) :
    unquotePlus (c :: r) ≠ [] := by
  by_cases h1 : c = '+'
  · subst h1
    rw [unquotePlus_cons_plus]
    simp
  · by_cases h2 : c = '%'
    · subst h2
      match r with
      | [] => simp [unquotePlus, unquoteAux]
      | [a] => simp [unquotePlus, unquoteAux]
      | a :: b :: r' =>
        show unquoteAux (r'.length + 2 + 1) ('%' :: a :: b :: r') ≠ []
        rw [unquoteAux_pct]
        cases hexVal a <;> cases hexVal b <;> simp
    · rw [unquotePlus_cons_plain c r h1 h2]
      simp

/-- Helper: a pair produced by one `qslStep` is the decoded chunk pair or
    comes from the accumulator. -/
theorem mem_qslStep (ch : List Char) (acc : List (List Char × List Char)) :
    ∀ p ∈ qslStep ch acc, p ∈ acc ∨
      ∃ n v, splitFirst '=' ch = (n, some v) ∧ v ≠ [] ∧
        p = (unquotePlus n, unquotePlus v) := by
  intro p hp
  unfold qslStep at hp
  by_cases hce : ch.isEmpty
  · rw [if_pos hce] at hp
    exact Or.inl hp
  · rw [if_neg hce] at hp
    rcases hsf : splitFirst '=' ch with ⟨n, vo⟩
    rw [hsf] at hp
    match vo, hp with
    | none, hp => exact Or.inl hp
    | some [], hp => exact Or.inl hp
    | some (v :: vs), hp =>
      rcases List.mem_cons.mp hp with hp1 | hp2
      · exact Or.inr ⟨n, v :: vs, rfl, by simp, hp1⟩
      · exact Or.inl hp2

/-- Helper: every `parseQsl` pair is a decoded chunk of the query. -/
theorem mem_parseQsl (qs : List Char) :
    ∀ p ∈ parseQsl qs, ∃ ch ∈ splitSep '&' qs, ∃ n v,
      splitFirst '=' ch = (n, some v) ∧ v ≠ [] ∧
        p = (unquotePlus n, unquotePlus v) := by
  show ∀ p ∈ (splitSep '&' qs).foldr qslStep [], _
  generalize splitSep '&' qs = chunks
  induction chunks with
  | nil => intro p hp; cases hp
  | cons ch rest ih =>
    intro p hp
    rw [List.foldr_cons] at hp
    rcases mem_qslStep ch _ p hp with h1 | ⟨n, v, hsf, hv, hpv⟩
    · rcases ih p h1 with ⟨ch', hch', hrest⟩
      exact ⟨ch', List.mem_cons_of_mem ch hch', hrest⟩
    · exact ⟨ch, List.mem_cons_self ch rest, n, v, hsf, hv, hpv⟩

/-- Helper: `parseQsl` never emits an empty value. -/
theorem parseQsl_value_ne_nil (qs : List Char) :
    ∀ p ∈ parseQsl qs, p.2 ≠ [] := by
  intro p hp
  rcases mem_parseQsl qs p hp with ⟨ch, hch, n, v, hsf, hv, hpv⟩
  rw [hpv]
  cases v with
  | nil => exact absurd rfl hv
  | cons c r => exact unquotePlus_cons_ne_nil c r

/-- Helper: `parseQsl` output characters stay below 256 when the query's
    are. -/
theorem parseQsl_lt_256 (qs : List Char) (hq : ∀ c ∈ qs, c.toNat < 256) :
    ∀ p ∈ parseQsl qs,
      (∀ c ∈ p.1, c.toNat < 256) ∧ ∀ c ∈ p.2, c.toNat < 256 := by
  intro p hp
  rcases mem_parseQsl qs p hp with ⟨ch, hch, n, v, hsf, hv, hpv⟩
  have hchc : ∀ c ∈ ch, c.toNat < 256 :=
    fun c hc => hq c (mem_of_mem_splitSep '&' qs ch hch c hc)
  have hn : ∀ c ∈ n, c.toNat < 256 := by
    intro c hc
    apply hchc
    have := (mem_of_mem_splitFirst '=' ch).1
    rw [hsf] at this
    exact this c hc
  have hvc : ∀ c ∈ v, c.toNat < 256 := by
    intro c hc
    apply hchc
    have := (mem_of_mem_splitFirst '=' ch).2
    rw [hsf] at this
    exact this v rfl c hc
  rw [hpv]
  exact ⟨fun c hc => unquoteAux_lt_256 _ n hn c hc,
    fun c hc => unquoteAux_lt_256 _ v hvc c hc⟩

/-! ### Ordered-dict lemmas -/

theorem alookup_upsert_self {β : Type} (k : List Char) (v : β)
    (d : List (List Char × β)) : alookup k (upsert k v d) = some v := by
  induction d with
  | nil => simp [upsert, alookup]
  | cons p rest ih =>
    rcases p with ⟨k', v'⟩
    by_cases hk : k' = k
    · simp [upsert, hk, alookup]
    · simp only [upsert, if_neg hk, alookup, if_neg hk]
      exact ih

theorem alookup_upsert_other {β : Type} (k k' : List Char) (v : β)
    (d : List (List Char × β)) (h : k' ≠ k) :
    alookup k' (upsert k v d) = alookup k' d := by
  induction d with
  | nil => simp [upsert, alookup, Ne.symm h]
  | cons p rest ih =>
    rcases p with ⟨k0, v0⟩
    by_cases hk : k0 = k
    · subst hk
      simp only [upsert, if_pos rfl, alookup]
      rw [if_neg (fun he : k0 = k' => h he.symm),
        if_neg (fun he : k0 = k' => h he.symm)]
    · simp only [upsert, if_neg hk, alookup, ih]

theorem mem_upsert {β : Type} (k : List Char) (v : β)
    (d : List (List Char × β)) :
    ∀ p ∈ upsert k v d, p = (k, v) ∨ p ∈ d := by
  induction d with
  | nil =>
    intro p hp
    simp only [upsert, List.mem_singleton] at hp
    exact Or.inl hp
  | cons q rest ih =>
    intro p hp
    rcases q with ⟨k0, v0⟩
    by_cases hk : k0 = k
    · simp only [upsert, if_pos hk, List.mem_cons] at hp
      rcases hp with hp1 | hp2
      · subst hp1
        exact Or.inl (by rw [hk])
      · exact Or.inr (List.mem_cons_of_mem _ hp2)
    · simp only [upsert, if_neg hk, List.mem_cons] at hp
      rcases hp with hp1 | hp2
      · exact Or.inr (by simp [hp1])
      · rcases ih p hp2 with h1 | h2
        · exact Or.inl h1
        · exact Or.inr (List.mem_cons_of_mem _ h2)

/-- Helper: every pair of `dictLastWins l` is a pair of `l`. -/
theorem mem_dictLastWins (l : List (List Char × List Char)) :
    ∀ p ∈ dictLastWins l, p ∈ l := by
  have hgen : ∀ (acc : List (List Char × List Char)),
      ∀ p ∈ l.foldl (fun acc q => upsert q.1 q.2 acc) acc,
        p ∈ acc ∨ p ∈ l := by
    induction l with
    | nil => intro acc p hp; exact Or.inl hp
    | cons q rest ih =>
      intro acc p hp
      rw [List.foldl_cons] at hp
      rcases ih (upsert q.1 q.2 acc) p hp with h1 | h2
      · rcases mem_upsert q.1 q.2 acc p h1 with h3 | h4
        · right
          rw [h3]
          simp
        · exact Or.inl h4
      · exact Or.inr (List.mem_cons_of_mem q h2)
  intro p hp
  rcases hgen [] p hp with h1 | h2
  · cases h1
  · exact h2

/-! ### `urlencodeD` characterization -/

/-- Helper: `urlencodeD` on a non-empty dict, as chunks joined by `&`. -/
theorem urlencodeD_cons (x : List Char × List Char)
    (ts : List (List Char × List Char)) :
    urlencodeD (x :: ts) = (quotePlus x.1 ++ ('=' :: quotePlus x.2)) ++
      (ts.map fun r => quotePlus r.1 ++ ('=' :: quotePlus r.2)).flatMap
        (fun s => '&' :: s) := by
  show (ts.map _).foldl _ _ = _
  exact encodeFold _ _

/-- Helper: every character of an encoded dict is a separator or encoded
    output. -/
theorem urlencodeD_chars (d : List (List Char × List Char)) :
    ∀ c ∈ urlencodeD d, c = '&' ∨ c = '=' ∨
      ∃ p ∈ d, c ∈ quotePlus p.1 ∨ c ∈ quotePlus p.2 := by
  cases d with
  | nil => intro c hc; cases hc
  | cons x ts =>
    intro c hc
    rw [urlencodeD_cons] at hc
    rcases List.mem_append.mp hc with h1 | h2
    · rcases List.mem_append.mp h1 with h3 | h4
      · exact Or.inr (Or.inr ⟨x, List.mem_cons_self x ts, Or.inl h3⟩)
      · rcases List.mem_cons.mp h4 with h5 | h6
        · exact Or.inr (Or.inl h5)
        · exact Or.inr (Or.inr ⟨x, List.mem_cons_self x ts, Or.inr h6⟩)
    · rcases List.mem_flatMap.mp h2 with ⟨s, hs, hcs⟩
      rcases List.mem_map.mp hs with ⟨p, hp, hps⟩
      rcases List.mem_cons.mp (hps ▸ hcs) with h5 | h6
      · exact Or.inl h5
      · rcases List.mem_append.mp h6 with h7 | h8
        · exact Or.inr (Or.inr ⟨p, List.mem_cons_of_mem x hp, Or.inl h7⟩)
        · rcases List.mem_cons.mp h8 with h9 | h10
          · exact Or.inr (Or.inl h9)
          · exact Or.inr (Or.inr ⟨p, List.mem_cons_of_mem x hp, Or.inr h10⟩)

/-- Helper: an encoded non-empty dict is a non-empty string. -/
theorem urlencodeD_cons_ne_nil (x : List Char × List Char)
    (ts : List (List Char × List Char)) : urlencodeD (x :: ts) ≠ [] := by
  rw [urlencodeD_cons]
  simp

/-- Helper: scheme extraction on a well-formed `scheme:rest` string. -/
theorem splitScheme_append (s rest : List Char)
    (hs : ∃ c s', s = c :: s' ∧ isAlphaC c = true)
    (hsA : ∀ c ∈ s, isSchemeC c = true) (hsLow : lowerL s = s) :
    splitScheme (s ++ ':' :: rest) = (s, rest) := by
  rcases hs with ⟨c, s', rfl, hA⟩
  have hrun : takeRun isSchemeC ((c :: s') ++ ':' :: rest) = c :: s' :=
    takeRun_append _ _ _ _ hsA (by decide)
  show splitScheme ((c :: s') ++ ':' :: rest) = _
  rw [List.cons_append]
  simp only [splitScheme]
  rw [if_pos hA]
  rw [← List.cons_append, hrun, List.drop_left, hsLow]
  rfl

/-- Helper: the netloc run stops at the first delimiter after the host. -/
theorem netlocRun (nl : List Char) (x : Char) (rest : List Char)
    (hnl : ∀ c ∈ nl, isNetlocEnd c = false) (hx : isNetlocEnd x = true) :
    takeRun (fun c => ¬ isNetlocEnd c) (nl ++ x :: rest) = nl := by
  apply takeRun_append
  · intro c hc
    simp [hnl c hc]
  · simp [hx]

/-- Helper: re-parsing an unparsed URL with well-formed components recovers
    them: the scheme is non-empty, lower-case and well-formed, the netloc is
    non-empty and delimiter-free, the path is empty or rooted and free of
    `?`/`#`, the query is non-empty and free of `#`. -/
theorem urlparse_urlunparse (s nl p q f : List Char)
    (hs : ∃ c s', s = c :: s' ∧ isAlphaC c = true)
    (hsA : ∀ c ∈ s, isSchemeC c = true) (hsLow : lowerL s = s)
    (hnl0 : nl ≠ []) (hnl : ∀ c ∈ nl, isNetlocEnd c = false)
    (hp : p = [] ∨ ∃ p', p = '/' :: p') (hpq : '?' ∉ p) (hpf : '#' ∉ p)
    (hq0 : q ≠ []) (hqf : '#' ∉ q) :
    urlparse (urlunparse ⟨s, nl, p, q, f⟩) = ⟨s, nl, p, q, f⟩ := by
  have hs0 : s ≠ [] := by rcases hs with ⟨c, s', rfl, _⟩; simp
  have hnohash : '#' ∉ p ++ '?' :: q := by
    intro hm
    rcases List.mem_append.mp hm with h1 | h2
    · exact hpf h1
    · rcases List.mem_cons.mp h2 with h3 | h4
      · exact absurd h3 (by decide)
      · exact hqf h4
  have hsplit2 : splitFirst '?' (p ++ '?' :: q) = (p, some q) :=
    splitFirst_append_sep _ _ _ hpq
  have hrest : ∀ tail : List Char,
      takeRun (fun c => ¬ isNetlocEnd c) (nl ++ (p ++ '?' :: tail)) = nl := by
    intro tail
    rcases hp with rfl | ⟨p', rfl⟩
    · simp only [List.nil_append]
      exact netlocRun nl '?' tail hnl (by decide)
    · rw [show ('/' :: p' ++ '?' :: tail) = '/' :: (p' ++ '?' :: tail) from by
        simp]
      exact netlocRun nl '/' (p' ++ '?' :: tail) hnl (by decide)
  have hF : ∀ T : List Char, urlunparse ⟨s, nl, p, q, f⟩ =
      s ++ ':' :: '/' :: '/' :: (nl ++ (p ++ '?' :: q ++ T)) →
      urlparse (urlunparse ⟨s, nl, p, q, f⟩) =
        urlparse (s ++ ':' :: '/' :: '/' :: (nl ++ (p ++ '?' :: q ++ T))) :=
    fun T h => by rw [h]
  by_cases hf0 : f = []
  · subst hf0
    have hun : urlunparse ⟨s, nl, p, q, ([] : List Char)⟩ =
        s ++ ':' :: '/' :: '/' :: (nl ++ (p ++ '?' :: q)) := by
      unfold urlunparse
      simp only [List.isEmpty_iff, hnl0, hs0, hq0, not_false_iff, true_or,
        if_pos, if_neg, List.isEmpty_nil]
      rcases hp with rfl | ⟨p', rfl⟩ <;> simp [List.append_assoc]
    rw [hun]
    unfold urlparse
    rw [splitScheme_append s _ hs hsA hsLow]
    have h1 := hrest q
    simp only [h1, List.drop_left]
    rw [splitFirst_no_sep _ _ hnohash]
    simp only [hsplit2]
    rfl
  · have hun : urlunparse ⟨s, nl, p, q, f⟩ =
        s ++ ':' :: '/' :: '/' :: (nl ++ (p ++ '?' :: (q ++ '#' :: f))) := by
      unfold urlunparse
      simp only [List.isEmpty_iff, hnl0, hs0, hq0, hf0, not_false_iff,
        true_or, if_pos, if_neg]
      rcases hp with rfl | ⟨p', rfl⟩ <;> simp [List.append_assoc]
    rw [hun]
    unfold urlparse
    rw [splitScheme_append s _ hs hsA hsLow]
    have h1 := hrest (q ++ '#' :: f)
    simp only [h1, List.drop_left]
    rw [show p ++ '?' :: (q ++ '#' :: f) = (p ++ '?' :: q) ++ '#' :: f from by
      simp]
    rw [splitFirst_append_sep _ _ _ hnohash]
    simp only [hsplit2]
    rfl

/-- Helper: a 403 response comes straight through the transport layer. -/
theorem transportGet_plain (server : Nat → WireOutcome) (url : List Char)
    (n : Nat) (st : Nat) (b : List Char) (h : server n = .resp st b)
    (hst : st ∉ retryStatuses) :
    transportGet server url n 3 = (.ok ⟨st, b, url⟩, n + 1) := by
  show transportGet server url n (2 + 1) = _
  simp only [transportGet, h]
  rw [if_neg hst]

/-- Helper: the retry statuses all lie at 400 or above. -/
theorem retryStatuses_ge_400 (st : Nat) (h : st ∈ retryStatuses) :
    400 ≤ st := by
  simp only [retryStatuses, List.mem_cons, List.not_mem_nil, or_false] at h
  rcases h with rfl | rfl | rfl | rfl | rfl <;> omega

/-- Helper: one attempt under a 403 followed by a successful AMP response
    returns the AMP response. -/
theorem attemptGet_amp_ok (server : Nat → WireOutcome) (url : List Char)
    (n : Nat) (b b2 : List Char) (s2 : Nat) (h0 : server n = .resp 403 b)
    (h1 : server (n + 1) = .resp s2 b2) (hs2 : s2 < 400) :
    attemptGet server url n = (.ok ⟨s2, b2, add_amp url⟩, n + 2) := by
  have hs2r : s2 ∉ retryStatuses := fun hm =>
    absurd (retryStatuses_ge_400 s2 hm) (by omega)
  have ht1 := transportGet_plain server url n 403 b h0 (by decide)
  have ht2 := transportGet_plain server (add_amp url) (n + 1) s2 b2 h1 hs2r
  unfold attemptGet
  rw [ht1]
  show (if (403 : Nat) = 403 then _ else _) = _
  rw [if_pos rfl, ht2]
  show (if s2 < 400 then _ else _) = _
  rw [if_pos hs2]

/-- Helper: one attempt under a 403 followed by a failing AMP response
    raises `HTTPError` for the original 403. -/
theorem attemptGet_amp_fail (server : Nat → WireOutcome) (url : List Char)
    (n : Nat) (b b2 : List Char) (s2 : Nat) (h0 : server n = .resp 403 b)
    (h1 : server (n + 1) = .resp s2 b2) (hs2 : 400 ≤ s2)
    (hs2r : s2 ∉ retryStatuses) :
    attemptGet server url n = (.error (.http 403), n + 2) := by
  have ht1 := transportGet_plain server url n 403 b h0 (by decide)
  have ht2 := transportGet_plain server (add_amp url) (n + 1) s2 b2 h1 hs2r
  unfold attemptGet
  rw [ht1]
  show (if (403 : Nat) = 403 then _ else _) = _
  rw [if_pos rfl, ht2]
  show (if s2 < 400 then _ else _) = _
  rw [if_neg (by omega)]

/-- C3 counterexample: the AMP variant does not preserve all other query
    parameters: for `https://h/p?a=1&a=2` the earlier binding `a=1` is
    dropped (the query is collapsed through a last-wins dict before
    re-encoding). -/
theorem amp_variant_drops_duplicate_param :
    ("a".data, "1".data) ∈ parseQsl (urlparse dupKeyUrl).query ∧
    add_amp dupKeyUrl = "https://h/p?a=2&platform=amp".data ∧
    ("a".data, "1".data) ∉ parseQsl (urlparse (add_amp dupKeyUrl)).query := by
  refine ⟨by decide, by rfl, by decide⟩

/-- C3 (amended): on a 403 the fetch derives the AMP variant (appending or
    overwriting `platform=amp`, preserving for each other key its last
    value, with duplicates collapsed and values re-encoded) and retries once
    against it inside the same attempt: a successful AMP response is
    returned as the result; a failing one raises the original 403 as
    `HTTPError` (which the outer attempt loop may catch and retry, so it is
    surfaced to the caller once attempts are exhausted). -/
theorem amp_fallback_behaviour :
    (∀ (server : Nat → WireOutcome) (url b b2 : List Char) (s2 : Nat),
      server 0 = .resp 403 b → server 1 = .resp s2 b2 → s2 < 400 →
      get_link server url = (.ok ⟨s2, b2, add_amp url⟩, 2, [])) ∧
    (∀ (server : Nat → WireOutcome) (url b b2 : List Char) (n s2 : Nat),
      server n = .resp 403 b → server (n + 1) = .resp s2 b2 → 400 ≤ s2 →
      s2 ∉ retryStatuses →
      attemptGet server url n = (.error (.http 403), n + 2)) ∧
    get_link srv403ampFail plainUrl = (.error (.http 403), 6, [3 / 4, 3 / 2]) ∧
    (∀ url : List Char,
      (∃ c s', (urlparse url).scheme = c :: s' ∧ isAlphaC c = true) →
      (∀ c ∈ (urlparse url).scheme, isSchemeC c = true) →
      lowerL (urlparse url).scheme = (urlparse url).scheme →
      (urlparse url).netloc ≠ [] →
      (∀ c ∈ (urlparse url).netloc, isNetlocEnd c = false) →
      ((urlparse url).path = [] ∨ ∃ p', (urlparse url).path = '/' :: p') →
      '?' ∉ (urlparse url).path → '#' ∉ (urlparse url).path →
      (∀ c ∈ (urlparse url).query, c.toNat < 256) →
      parseQsl ((urlparse (add_amp url)).query) =
        (if alookup "platform".data
            (dictLastWins (parseQsl (urlparse url).query)) =
            some "amp".data
         then dictLastWins (parseQsl (urlparse url).query)
         else upsert "platform".data "amp".data
            (dictLastWins (parseQsl (urlparse url).query))) ∧
      alookup "platform".data (parseQsl ((urlparse (add_amp url)).query)) =
        some "amp".data ∧
      ∀ k, k ≠ "platform".data →
        alookup k (parseQsl ((urlparse (add_amp url)).query)) =
          alookup k (dictLastWins (parseQsl (urlparse url).query))) := by
  refine ⟨?_, ?_, ?_, ?_⟩
  · intro server url b b2 s2 h0 h1 hs2
    have hA := attemptGet_amp_ok server url 0 b b2 s2 h0 h1 hs2
    show getLinkLoop server url (3 / 4) (1 + 1) 0 0 = _
    simp only [getLinkLoop, hA]
  · intro server url b b2 n s2 h0 h1 hs2 hs2r
    exact attemptGet_amp_fail server url n b b2 s2 h0 h1 hs2 hs2r
  · have h : get_link srv403ampFail plainUrl =
        (.error (.http 403), 6, [3 / 4 * 2 ^ 0, 3 / 4 * 2 ^ 1]) := by rfl
    rw [h]
    norm_num
  · intro url hs hsA hsLow hnl0 hnl hp hpq hpf hq256
    set d0 := dictLastWins (parseQsl (urlparse url).query) with hd0
    set d' := (if alookup "platform".data d0 = some "amp".data then d0
      else upsert "platform".data "amp".data d0) with hd'
    have hpairs : ∀ p ∈ d', p.2 ≠ [] ∧
        (∀ c ∈ p.1, c.toNat < 256) ∧ ∀ c ∈ p.2, c.toNat < 256 := by
      intro p hp2
      have hd0pairs : ∀ p ∈ d0, p.2 ≠ [] ∧
          (∀ c ∈ p.1, c.toNat < 256) ∧ ∀ c ∈ p.2, c.toNat < 256 := by
        intro p hp3
        have hmem := mem_dictLastWins _ p hp3
        refine ⟨parseQsl_value_ne_nil _ p hmem, ?_, ?_⟩
        · exact (parseQsl_lt_256 _ hq256 p hmem).1
        · exact (parseQsl_lt_256 _ hq256 p hmem).2
      rw [hd'] at hp2
      by_cases hcond : alookup "platform".data d0 = some "amp".data
      · rw [if_pos hcond] at hp2
        exact hd0pairs p hp2
      · rw [if_neg hcond] at hp2
        rcases mem_upsert _ _ _ p hp2 with h1 | h2
        · subst h1
          refine ⟨by decide, by decide, by decide⟩
        · exact hd0pairs p h2
    have hne : d' ≠ [] := by
      rw [hd']
      by_cases hcond : alookup "platform".data d0 = some "amp".data
      · rw [if_pos hcond]
        intro hnil
        rw [hnil] at hcond
        cases hcond
      · rw [if_neg hcond]
        cases d0 with
        | nil => simp [upsert]
        | cons x rest =>
          rcases x with ⟨k0, v0⟩
          by_cases hk : k0 = "platform".data <;> simp [upsert, hk]
    have hqparse : parseQsl (urlencodeD d') = d' :=
      parseQsl_urlencodeD d' (fun p hp2 => (hpairs p hp2).1)
        (fun p hp2 => ⟨(hpairs p hp2).2.1, (hpairs p hp2).2.2⟩)
    have hencne : urlencodeD d' ≠ [] := by
      cases hd'' : d' with
      | nil => exact absurd hd'' hne
      | cons x ts => exact urlencodeD_cons_ne_nil x ts
    have hencnohash : '#' ∉ urlencodeD d' := by
      intro hm
      rcases urlencodeD_chars d' '#' hm with h1 | h2 | ⟨p, _, h3 | h3⟩
      · exact absurd h1 (by decide)
      · exact absurd h2 (by decide)
      · exact (quotePlus_not_delim _ _ h3).2.2.1 rfl
      · exact (quotePlus_not_delim _ _ h3).2.2.1 rfl
    have hadd : add_amp url = urlunparse
        ⟨(urlparse url).scheme, (urlparse url).netloc, (urlparse url).path,
          urlencodeD d', (urlparse url).fragment⟩ := rfl
    have hre : urlparse (add_amp url) =
        ⟨(urlparse url).scheme, (urlparse url).netloc, (urlparse url).path,
          urlencodeD d', (urlparse url).fragment⟩ := by
      rw [hadd]
      exact urlparse_urlunparse _ _ _ _ _ hs hsA hsLow hnl0 hnl hp hpq hpf
        hencne hencnohash
    have hq : (urlparse (add_amp url)).query = urlencodeD d' := by
      rw [hre]
    rw [hq, hqparse]
    refine ⟨rfl, ?_, ?_⟩
    · rw [hd']
      by_cases hcond : alookup "platform".data d0 = some "amp".data
      · rw [if_pos hcond]
        exact hcond
      · rw [if_neg hcond]
        exact alookup_upsert_self _ _ _
    · intro k hk
      rw [hd']
      by_cases hcond : alookup "platform".data d0 = some "amp".data
      · rw [if_pos hcond]
      · rw [if_neg hcond]
        exact alookup_upsert_other _ _ _ _ hk

/-- C3 witness: a 403 followed by a 200 on the AMP variant returns the AMP
    body, and the AMP variant of the duplicate-key URL carries exactly the
    last-wins query with `platform=amp` appended. -/
theorem amp_fallback_behaviour_witness :
    get_link srv403amp plainUrl =
      (.ok ⟨200, "amp body".data, add_amp plainUrl⟩, 2, []) ∧
    parseQsl ((urlparse (add_amp dupKeyUrl)).query) =
      [("a".data, "2".data), ("platform".data, "amp".data)] :=
  ⟨amp_fallback_behaviour.1 srv403amp plainUrl "blocked".data "amp body".data
      200 rfl rfl (by decide),
   (amp_fallback_behaviour.2.2.2 dupKeyUrl
      ⟨'h', "ttps".data, rfl, by decide⟩ (by decide) (by decide)
      (by decide) (by decide) (Or.inr ⟨['p'], rfl⟩) (by decide) (by decide)
      (by decide)).1.trans (by decide)⟩

/-- Helper: full characterization of the first-occurrence dedup loop with a
    generalized seen set. -/
theorem dedupBySrcAux_spec (l : List ImageCandidate) :
    ∀ seen : List (List Char),
    List.Sublist (dedupBySrcAux seen l) l ∧
    (∀ it ∈ dedupBySrcAux seen l, it.src ∉ seen) ∧
    ((dedupBySrcAux seen l).map ImageCandidate.src).Nodup ∧
    (∀ it ∈ l, it.src ∈ seen ∨
      it.src ∈ (dedupBySrcAux seen l).map ImageCandidate.src) ∧
    (∀ it ∈ dedupBySrcAux seen l, ∃ pre post, l = pre ++ it :: post ∧
      ∀ x ∈ pre, x.src = it.src → x.src ∈ seen) := by
  induction l with
  | nil =>
    intro seen
    refine ⟨List.Sublist.refl _, ?_, ?_, ?_, ?_⟩
    · intro it hit; cases hit
    · simp [dedupBySrcAux]
    · intro it hit; cases hit
    · intro it hit; cases hit
  | cons y rest ih =>
    intro seen
    by_cases hy : y.src ∈ seen
    · have hred : dedupBySrcAux seen (y :: rest) = dedupBySrcAux seen rest := by
        simp [dedupBySrcAux, hy]
      obtain ⟨ihsub, ihseen, ihnodup, ihcov, ihfirst⟩ := ih seen
      rw [hred]
      refine ⟨ihsub.cons y, ihseen, ihnodup, ?_, ?_⟩
      · intro it hit
        rcases List.mem_cons.mp hit with hit1 | hit2
        · subst hit1
          exact Or.inl hy
        · exact ihcov it hit2
      · intro it hit
        obtain ⟨pre, post, hl, hpre⟩ := ihfirst it hit
        refine ⟨y :: pre, post, by simp [hl], ?_⟩
        intro x hx hxs
        rcases List.mem_cons.mp hx with hx1 | hx2
        · subst hx1
          exact hy
        · exact hpre x hx2 hxs
    · have hred : dedupBySrcAux seen (y :: rest) =
          y :: dedupBySrcAux (y.src :: seen) rest := by
        simp [dedupBySrcAux, hy]
      obtain ⟨ihsub, ihseen, ihnodup, ihcov, ihfirst⟩ := ih (y.src :: seen)
      rw [hred]
      refine ⟨ihsub.cons₂ y, ?_, ?_, ?_, ?_⟩
      · intro it hit
        rcases List.mem_cons.mp hit with hit1 | hit2
        · subst hit1
          exact hy
        · intro hmem
          exact (ihseen it hit2) (List.mem_cons_of_mem _ hmem)
      · rw [List.map_cons]
        refine List.nodup_cons.mpr ⟨?_, ihnodup⟩
        intro hmem
        rcases List.mem_map.mp hmem with ⟨it, hit, hsrc⟩
        exact (ihseen it hit) (hsrc ▸ List.mem_cons_self _ _)
      · intro it hit
        rcases List.mem_cons.mp hit with hit1 | hit2
        · subst hit1
          exact Or.inr (by simp)
        · rcases ihcov it hit2 with h1 | h2
          · rcases List.mem_cons.mp h1 with h3 | h4
            · exact Or.inr (by simp [h3])
            · exact Or.inl h4
          · exact Or.inr (by simp [h2])
      · intro it hit
        rcases List.mem_cons.mp hit with hit1 | hit2
        · subst hit1
          exact ⟨[], rest, rfl, by intro x hx; cases hx⟩
        · obtain ⟨pre, post, hl, hpre⟩ := ihfirst it hit2
          have hne : it.src ≠ y.src := by
            intro he
            exact (ihseen it hit2) (he ▸ List.mem_cons_self _ _)
          refine ⟨y :: pre, post, by simp [hl], ?_⟩
          intro x hx hxs
          rcases List.mem_cons.mp hx with hx1 | hx2
          · subst hx1
            exact absurd hxs.symm hne
          · have := hpre x hx2 hxs
            rcases List.mem_cons.mp this with h3 | h4
            · rw [hxs] at h3
              exact absurd h3 hne
            · exact h4

/-- C6: the fallback policy: a non-empty Strategy A output is returned with
    the label `inline + captioned` (Strategy B's output is not consulted);
    otherwise a non-empty Strategy B output is returned with `captioned`;
    otherwise the empty list with `none`.  Within a strategy's output,
    exact-URL duplicates are removed keeping the first occurrence: the
    output is a sublist of the raw scan with pairwise distinct resolved
    URLs, covering every scanned URL, and each survivor is the first
    occurrence of its URL. -/
theorem image_fallback_policy :
    (∀ (doc : List Node) (pageUrl : List Char),
      extract_inline_photo_images doc pageUrl ≠ [] →
      get_article_images_with_fallback doc pageUrl =
        (extract_inline_photo_images doc pageUrl,
          "inline + captioned".data)) ∧
    (∀ (doc : List Node) (pageUrl : List Char),
      extract_inline_photo_images doc pageUrl = [] →
      extract_captioned_images doc pageUrl ≠ [] →
      get_article_images_with_fallback doc pageUrl =
        (extract_captioned_images doc pageUrl, "captioned".data)) ∧
    (∀ (doc : List Node) (pageUrl : List Char),
      extract_inline_photo_images doc pageUrl = [] →
      extract_captioned_images doc pageUrl = [] →
      get_article_images_with_fallback doc pageUrl = ([], "none".data)) ∧
    (∀ l : List ImageCandidate,
      List.Sublist (dedupBySrc l) l ∧
      ((dedupBySrc l).map ImageCandidate.src).Nodup ∧
      (∀ it ∈ l, it.src ∈ (dedupBySrc l).map ImageCandidate.src) ∧
      ∀ it ∈ dedupBySrc l, ∃ pre post, l = pre ++ it :: post ∧
        ∀ x ∈ pre, x.src ≠ it.src) := by
  refine ⟨?_, ?_, ?_, ?_⟩
  · intro doc pageUrl h
    unfold get_article_images_with_fallback
    rw [if_pos (by simp [List.isEmpty_iff, h])]
  · intro doc pageUrl h1 h2
    unfold get_article_images_with_fallback
    rw [if_neg (by simp [List.isEmpty_iff, h1]),
      if_pos (by simp [List.isEmpty_iff, h2])]
  · intro doc pageUrl h1 h2
    unfold get_article_images_with_fallback
    rw [if_neg (by simp [List.isEmpty_iff, h1]),
      if_neg (by simp [List.isEmpty_iff, h2])]
  · intro l
    obtain ⟨hsub, hseen, hnodup, hcov, hfirst⟩ := dedupBySrcAux_spec l []
    refine ⟨hsub, hnodup, ?_, ?_⟩
    · intro it hit
      rcases hcov it hit with h1 | h2
      · cases h1
      · exact h2
    · intro it hit
      obtain ⟨pre, post, hl, hpre⟩ := hfirst it hit
      refine ⟨pre, post, hl, ?_⟩
      intro x hx he
      exact absurd (hpre x hx he) (List.not_mem_nil _)

/-- C6 witness: on the scenario document Strategy A is non-empty and its
    output is returned with the `inline + captioned` label. -/
theorem image_fallback_policy_witness :
    get_article_images_with_fallback c5doc c5pageUrl =
      (extract_inline_photo_images c5doc c5pageUrl,
        "inline + captioned".data) :=
  image_fallback_policy.1 c5doc c5pageUrl (by decide)


/-- Helper: a document where no selector matches has no body container. -/
theorem select_first_element_none (doc : List Node) :
    ∀ sels : List Sel, (∀ s ∈ sels, selectOne doc s = none) →
      select_first_element doc sels = none := by
  intro sels
  induction sels with
  | nil => intro _; rfl
  | cons s rest ih =>
    intro h
    unfold select_first_element
    rw [h s (List.mem_cons_self s rest), ih
      (fun s' hs' => h s' (List.mem_cons_of_mem s hs'))]

/-- C7: the paragraph filter: under the matched container, the paragraphs
    are exactly the non-empty `p`/`li` texts, in document order, with every
    line whose lower-cased text starts with an editor's-note marker
    (straight or curly apostrophe, hence case-insensitively) dropped; an
    otherwise-identical paragraph with different leading text is kept. -/
theorem editors_note_filter :
    (∀ (doc : List Node) (container : Node),
      select_first_element doc bodySelectors = some container →
      extractParagraphs doc =
        ((findAllTags container ["p".data, "li".data]).map
          (fun el => extract_text (some el))).filter
          (fun t => ¬ t.isEmpty ∧ ¬ isEditorsNote t)) ∧
    (∀ (doc : List Node) (t : List Char), t ∈ extractParagraphs doc →
      t ≠ [] ∧ isEditorsNote t = false) ∧
    (∀ p s : List Char, lowerL p = edNoteStraight →
      isEditorsNote (p ++ s) = true) ∧
    (∀ p s : List Char, lowerL p = edNoteCurly →
      isEditorsNote (p ++ s) = true) ∧
    extractParagraphs edNoteDoc = ["Update: Hello".data] := by
  have hmarker : ∀ (pre mark s : List Char), lowerL pre = mark →
      (mark.isPrefixOf (lowerL (pre ++ s))) = true := by
    intro pre mark s hp
    have hl : lowerL (pre ++ s) = mark ++ lowerL s := by
      unfold lowerL at hp ⊢
      rw [List.map_append, hp]
    rw [hl]
    exact List.isPrefixOf_iff_prefix.mpr (List.prefix_append _ _)
  refine ⟨?_, ?_, ?_, ?_, ?_⟩
  · intro doc container h
    unfold extractParagraphs
    rw [h]
  · intro doc t ht
    unfold extractParagraphs at ht
    cases hsel : select_first_element doc bodySelectors with
    | none => rw [hsel] at ht; cases ht
    | some container =>
      rw [hsel] at ht
      have := List.mem_filter.mp ht
      have h2 := this.2
      simp only [Bool.decide_and, Bool.and_eq_true, decide_eq_true_eq] at h2
      exact ⟨fun he => h2.1 (by simp [he]), by
        rcases h2 with ⟨_, h3⟩
        exact Bool.not_eq_true _ ▸ (by simpa using h3)⟩
  · intro p s hp
    have h := hmarker p edNoteStraight s hp
    unfold isEditorsNote
    simp [h]
  · intro p s hp
    have h := hmarker p edNoteCurly s hp
    unfold isEditorsNote
    simp [h]
  · decide

/-- C7 witness: the marker fires on an upper-case straight-apostrophe
    prefix. -/
theorem editors_note_filter_witness :
    isEditorsNote ("EDITOR\x27S NOTE".data ++ ": hi".data) = true :=
  editors_note_filter.2.2.1 "EDITOR\x27S NOTE".data ": hi".data (by decide)

/-- C8 counterexample: `div.article-body` is consulted after `main article`
    in the code's selector list, so the `main article` fallback is not
    final: on a document carrying both, the code picks the `article` inside
    `main`, while the claimed order (class selectors first, `main article`
    as final fallback) picks the `div`. -/
theorem body_selector_order_counterexample :
    (select_first_element c8doc bodySelectors).bind tagOf =
      some "article".data ∧
    (selectOne c8doc (.tagClass "div".data ["article-body".data])).isSome =
      true ∧
    (select_first_element c8doc claimedBodySelectors).bind tagOf =
      some "div".data := by
  refine ⟨by decide, by decide, by decide⟩

/-- C8 (amended): the body container is located by trying the source's
    selector list in order — `[data-testid="ArticleBody"]`,
    `section[name="articleBody"]`, `article .article-body`, `main article`,
    and then `div.article-body` (after the main-article fallback) — using
    the first selector that matches, and when none matches the paragraph
    sequence is empty. -/
theorem body_selector_first_match :
    (∀ (doc : List Node) (s : Sel) (rest : List Sel) (el : Node),
      selectOne doc s = some el →
      select_first_element doc (s :: rest) = some el) ∧
    (∀ (doc : List Node) (s : Sel) (rest : List Sel),
      selectOne doc s = none →
      select_first_element doc (s :: rest) = select_first_element doc rest) ∧
    (∀ doc : List Node, (∀ s ∈ bodySelectors, selectOne doc s = none) →
      extractParagraphs doc = []) ∧
    bodySelectors =
      [ .attrIs "data-testid".data "ArticleBody".data,
        .tagAttrIs "section".data "name".data "articleBody".data,
        .classUnder "article".data "article-body".data,
        .tagUnder "main".data "article".data,
        .tagClass "div".data ["article-body".data] ] := by
  refine ⟨?_, ?_, ?_, rfl⟩
  · intro doc s rest el h
    unfold select_first_element
    rw [h]
  · intro doc s rest h
    show (match selectOne doc s with
      | some el => some el
      | none => select_first_element doc rest) =
        select_first_element doc rest
    rw [h]
  · intro doc h
    unfold extractParagraphs
    rw [select_first_element_none doc bodySelectors h]

/-- C8 witness: first-match and none-match behaviour at concrete inputs. -/
theorem body_selector_first_match_witness :
    select_first_element c8doc
      (Sel.tagUnder "main".data "article".data :: []) = some c8articleNode ∧
    select_first_element c8doc
      (Sel.attrIs "data-testid".data "ArticleBody".data ::
        [Sel.tagUnder "main".data "article".data]) =
      select_first_element c8doc [Sel.tagUnder "main".data "article".data] ∧
    extractParagraphs [] = [] :=
  ⟨body_selector_first_match.1 c8doc _ [] c8articleNode rfl,
   body_selector_first_match.2.1 c8doc _ _ rfl,
   body_selector_first_match.2.2.1 [] (fun _ _ => rfl)⟩

/-! ### Bucket-dict lemmas for `dedupe_keep_largest` -/

theorem alookup_none_iff {β : Type} (k : List Char)
    (B : List (List Char × β)) :
    alookup k B = none ↔ k ∉ B.map Prod.fst := by
  induction B with
  | nil =>
    constructor
    · intro _ hm
      cases hm
    · intro _
      rfl
  | cons p rest ih =>
    rcases p with ⟨k', v'⟩
    simp only [alookup, List.map_cons, List.mem_cons]
    by_cases hk : k' = k
    · subst hk
      rw [if_pos rfl]
      constructor
      · intro h
        cases h
      · intro h
        exact absurd (Or.inl rfl) h
    · rw [if_neg hk, ih]
      constructor
      · intro h hm
        rcases hm with hm1 | hm2
        · exact hk hm1.symm
        · exact h hm2
      · exact fun h hm => h (Or.inr hm)

theorem upsert_map_fst_present {β : Type} (k : List Char) (v : β)
    (B : List (List Char × β)) (h : k ∈ B.map Prod.fst) :
    (upsert k v B).map Prod.fst = B.map Prod.fst := by
  induction B with
  | nil => cases h
  | cons p rest ih =>
    rcases p with ⟨k', v'⟩
    by_cases hk : k' = k
    · simp only [upsert, if_pos hk, List.map_cons]
    · have hmem : k ∈ rest.map Prod.fst := by
        rcases List.mem_cons.mp h with h1 | h2
        · exact absurd h1.symm hk
        · exact h2
      simp only [upsert, if_neg hk, List.map_cons, ih hmem]

theorem upsert_map_fst_absent {β : Type} (k : List Char) (v : β)
    (B : List (List Char × β)) (h : k ∉ B.map Prod.fst) :
    (upsert k v B).map Prod.fst = B.map Prod.fst ++ [k] := by
  induction B with
  | nil => rfl
  | cons p rest ih =>
    rcases p with ⟨k', v'⟩
    have hk : ¬ k' = k := by
      intro he
      exact h (by rw [List.map_cons, he]; exact List.mem_cons_self _ _)
    have hrest : k ∉ rest.map Prod.fst := fun hm =>
      h (by rw [List.map_cons]; exact List.mem_cons_of_mem _ hm)
    simp only [upsert, if_neg hk, List.map_cons, ih hrest, List.cons_append]

/-- Helper: one `dedupeStep` updates exactly the candidate's bucket, by
    `dedupePick`. -/
theorem dedupeStep_alookup (B : List (List Char × ImageCandidate))
    (it : ImageCandidate) (k : List Char) :
    alookup k (dedupeStep B it) =
      (if canonical_image_key it.src = k then
        dedupePick (alookup k B) it
       else alookup k B) := by
  by_cases hk : canonical_image_key it.src = k
  · rw [if_pos hk]
    subst hk
    cases hB : alookup (canonical_image_key it.src) B with
    | none =>
      unfold dedupeStep
      simp only [hB]
      rw [alookup_upsert_self]
      rfl
    | some prev =>
      unfold dedupeStep dedupePick
      simp only [hB]
      by_cases hw : effWidth it > prev.width.getD 0
      · rw [if_pos hw, if_pos hw, alookup_upsert_self]
      · rw [if_neg hw, if_neg hw, hB]
  · rw [if_neg hk]
    unfold dedupeStep
    cases hB : alookup (canonical_image_key it.src) B with
    | none =>
      simp only [hB]
      exact alookup_upsert_other _ _ _ _ (fun he => hk he.symm)
    | some prev =>
      simp only [hB]
      by_cases hw : effWidth it > prev.width.getD 0
      · rw [if_pos hw]
        exact alookup_upsert_other _ _ _ _ (fun he => hk he.symm)
      · rw [if_neg hw]

/-- Helper: one `dedupeStep` appends the key when new, else keeps the key
    list. -/
theorem dedupeStep_map_fst (B : List (List Char × ImageCandidate))
    (it : ImageCandidate) :
    (dedupeStep B it).map Prod.fst =
      (if canonical_image_key it.src ∈ B.map Prod.fst then B.map Prod.fst
       else B.map Prod.fst ++ [canonical_image_key it.src]) := by
  by_cases hmem : canonical_image_key it.src ∈ B.map Prod.fst
  · rw [if_pos hmem]
    unfold dedupeStep
    cases hB : alookup (canonical_image_key it.src) B with
    | none => exact absurd hmem ((alookup_none_iff _ _).mp hB)
    | some prev =>
      simp only [hB]
      by_cases hw : effWidth it > prev.width.getD 0
      · rw [if_pos hw]
        exact upsert_map_fst_present _ _ _ hmem
      · rw [if_neg hw]
  · rw [if_neg hmem]
    unfold dedupeStep
    cases hB : alookup (canonical_image_key it.src) B with
    | none =>
      simp only [hB]
      exact upsert_map_fst_absent _ _ _ hmem
    | some prev =>
      have hno : alookup (canonical_image_key it.src) B = none :=
        (alookup_none_iff _ _).mpr hmem
      rw [hB] at hno
      cases hno

/-- Helper: membership in the first-seen fold, generalised over the
    accumulator. -/
theorem mem_foldl_seen (ks : List (List Char)) :
    ∀ (acc : List (List Char)) (k : List Char),
      (k ∈ ks.foldl (fun acc k => if k ∈ acc then acc else acc ++ [k]) acc)
        ↔ (k ∈ acc ∨ k ∈ ks) := by
  induction ks with
  | nil =>
    intro acc k
    simp
  | cons a t ih =>
    intro acc k
    rw [List.foldl_cons, ih]
    by_cases ha : a ∈ acc
    · rw [if_pos ha]
      constructor
      · rintro (h | h)
        · exact Or.inl h
        · exact Or.inr (List.mem_cons_of_mem _ h)
      · rintro (h | h)
        · exact Or.inl h
        · rcases List.mem_cons.mp h with rfl | h2
          · exact Or.inl ha
          · exact Or.inr h2
    · rw [if_neg ha]
      constructor
      · rintro (h | h)
        · rcases List.mem_append.mp h with h1 | h1
          · exact Or.inl h1
          · exact Or.inr (List.mem_cons.mpr (Or.inl (List.mem_singleton.mp h1)))
        · exact Or.inr (List.mem_cons_of_mem _ h)
      · rintro (h | h)
        · exact Or.inl (List.mem_append.mpr (Or.inl h))
        · rcases List.mem_cons.mp h with rfl | h2
          · exact Or.inl (List.mem_append.mpr (Or.inr (List.mem_singleton.mpr rfl)))
          · exact Or.inr h2

/-- Helper: `firstSeenKeys` has the same members as its input. -/
theorem mem_firstSeenKeys (ks : List (List Char)) (k : List Char) :
    k ∈ firstSeenKeys ks ↔ k ∈ ks := by
  unfold firstSeenKeys
  rw [mem_foldl_seen]
  simp

/-- Helper: the first-seen fold never duplicates a key. -/
theorem nodup_foldl_seen (ks : List (List Char)) :
    ∀ acc : List (List Char), acc.Nodup →
      (ks.foldl (fun acc k => if k ∈ acc then acc else acc ++ [k]) acc).Nodup := by
  induction ks with
  | nil =>
    intro acc h
    exact h
  | cons a t ih =>
    intro acc h
    rw [List.foldl_cons]
    by_cases ha : a ∈ acc
    · rw [if_pos ha]
      exact ih acc h
    · rw [if_neg ha]
      refine ih _ ?_
      simp [List.nodup_append, h, ha]

theorem firstSeenKeys_nodup (ks : List (List Char)) :
    (firstSeenKeys ks).Nodup :=
  nodup_foldl_seen ks [] List.nodup_nil

/-- Helper: one step of the first-seen fold, in snoc form. -/
theorem firstSeenKeys_snoc (ks : List (List Char)) (k : List Char) :
    firstSeenKeys (ks ++ [k]) =
      (if k ∈ firstSeenKeys ks then firstSeenKeys ks
       else firstSeenKeys ks ++ [k]) := by
  unfold firstSeenKeys
  rw [List.foldl_append]
  rfl

/-- Helper: the bucket dict of `dedupe_keep_largest` lists the canonical keys
    in first-seen order. -/
theorem foldl_dedupeStep_keys (images : List ImageCandidate) :
    ((images.foldl dedupeStep []).map Prod.fst)
      = firstSeenKeys (images.map (fun it => canonical_image_key it.src)) := by
  induction images using List.reverseRecOn with
  | nil => rfl
  | append_singleton l it ih =>
    rw [List.foldl_append, List.foldl_cons, List.foldl_nil, dedupeStep_map_fst,
        List.map_append, List.map_cons, List.map_nil, firstSeenKeys_snoc, ih]

/-- Helper: the bucket for key `k` is the `dedupePick` fold of the candidates
    whose canonical key is `k`. -/
theorem foldl_dedupeStep_alookup (images : List ImageCandidate)
    (k : List Char) :
    alookup k (images.foldl dedupeStep [])
      = (images.filter
          (fun x => canonical_image_key x.src = k)).foldl dedupePick none := by
  induction images using List.reverseRecOn with
  | nil => rfl
  | append_singleton l it ih =>
    rw [List.foldl_append, List.foldl_cons, List.foldl_nil, dedupeStep_alookup,
        ih, List.filter_append]
    by_cases hk : canonical_image_key it.src = k
    · rw [if_pos hk]
      have hone : List.filter
          (fun x => decide (canonical_image_key x.src = k)) [it] = [it] := by
        simp [hk]
      rw [hone, List.foldl_append, List.foldl_cons, List.foldl_nil]
    · rw [if_neg hk]
      have hnone : List.filter
          (fun x => decide (canonical_image_key x.src = k)) [it] = [] := by
        simp [hk]
      rw [hnone, List.append_nil]

/-- Helper: the fresh-key equation for one `dedupeStep`. -/
theorem dedupeStep_none (B : List (List Char × ImageCandidate))
    (it : ImageCandidate)
    (h : alookup (canonical_image_key it.src) B = none) :
    dedupeStep B it = upsert (canonical_image_key it.src)
      { it with width := some (effWidth it) } B := by
  unfold dedupeStep
  simp only [h]

/-- Helper: the occupied-key equation for one `dedupeStep`. -/
theorem dedupeStep_some (B : List (List Char × ImageCandidate))
    (it prev : ImageCandidate)
    (h : alookup (canonical_image_key it.src) B = some prev) :
    dedupeStep B it =
      (if effWidth it > prev.width.getD 0 then
        upsert (canonical_image_key it.src)
          { it with width := some (effWidth it) } B
       else B) := by
  unfold dedupeStep
  simp only [h]

/-- Helper: every bucket entry stores a candidate whose canonical key is the
    bucket key. -/
theorem foldl_dedupeStep_consistent (images : List ImageCandidate) :
    ∀ p ∈ images.foldl dedupeStep [],
      canonical_image_key p.2.src = p.1 := by
  induction images using List.reverseRecOn with
  | nil =>
    intro p hp
    cases hp
  | append_singleton l it ih =>
    intro p hp
    rw [List.foldl_append, List.foldl_cons, List.foldl_nil] at hp
    cases hB : alookup (canonical_image_key it.src) (l.foldl dedupeStep []) with
    | none =>
      rw [dedupeStep_none _ _ hB] at hp
      rcases mem_upsert _ _ _ p hp with h0 | h0
      · subst h0
        rfl
      · exact ih p h0
    | some prev =>
      rw [dedupeStep_some _ _ _ hB] at hp
      by_cases hw : effWidth it > prev.width.getD 0
      · rw [if_pos hw] at hp
        rcases mem_upsert _ _ _ p hp with h0 | h0
        · subst h0
          rfl
        · exact ih p h0
      · rw [if_neg hw] at hp
        exact ih p hp

/-- Helper: the `dedupePick` fold of a nonempty group returns its first
    maximal-width member with the effective width written back. -/
theorem foldl_dedupePick_first_max (g : List ImageCandidate) (hg : g ≠ []) :
    ∃ pre it post,
      g = pre ++ it :: post
      ∧ g.foldl dedupePick none = some { it with width := some (effWidth it) }
      ∧ (∀ x ∈ pre, effWidth x < effWidth it)
      ∧ (∀ x ∈ g, effWidth x ≤ effWidth it) := by
  induction g using List.reverseRecOn with
  | nil => exact absurd rfl hg
  | append_singleton l y ih =>
    rcases eq_or_ne l [] with rfl | hl
    · refine ⟨[], y, [], rfl, rfl, ?_, ?_⟩
      · intro x hx
        cases hx
      · intro x hx
        rw [List.nil_append, List.mem_singleton] at hx
        subst hx
        exact le_refl _
    · rcases ih hl with ⟨pre, it, post, hsplit, hfold, hpre, hmax⟩
      have hdp : (l ++ [y]).foldl dedupePick none
          = if effWidth y > effWidth it then
              some { y with width := some (effWidth y) }
            else some { it with width := some (effWidth it) } := by
        rw [List.foldl_append, List.foldl_cons, List.foldl_nil, hfold]
        simp only [dedupePick, Option.getD_some]
      by_cases hw : effWidth y > effWidth it
      · refine ⟨l, y, [], rfl, ?_, ?_, ?_⟩
        · rw [hdp, if_pos hw]
        · intro x hx
          exact lt_of_le_of_lt (hmax x hx) hw
        · intro x hx
          rcases List.mem_append.mp hx with h1 | h1
          · exact le_of_lt (lt_of_le_of_lt (hmax x h1) hw)
          · rw [List.mem_singleton] at h1
            subst h1
            exact le_refl _
      · have hle : effWidth y ≤ effWidth it := not_lt.mp hw
        refine ⟨pre, it, post ++ [y], ?_, ?_, hpre, ?_⟩
        · rw [hsplit, List.append_assoc]
          rfl
        · rw [hdp, if_neg hw]
        · intro x hx
          rcases List.mem_append.mp hx with h1 | h1
          · exact hmax x h1
          · rw [List.mem_singleton] at h1
            subst h1
            exact hle

/-- Helper: with pairwise-distinct, key-consistent buckets, filtering the
    values by a key picks out exactly the bucket at that key. -/
theorem bucket_values_filter (B : List (List Char × ImageCandidate))
    (hnd : (B.map Prod.fst).Nodup)
    (hcons : ∀ p ∈ B, canonical_image_key p.2.src = p.1) (k : List Char) :
    (B.map Prod.snd).filter (fun v => canonical_image_key v.src = k)
      = (alookup k B).toList := by
  induction B with
  | nil => rfl
  | cons p rest ih =>
    rcases p with ⟨kh, v⟩
    have hv : canonical_image_key v.src = kh :=
      hcons (kh, v) (List.mem_cons_self _ _)
    have hndr : (rest.map Prod.fst).Nodup := by
      rw [List.map_cons] at hnd
      exact hnd.of_cons
    have hconsr : ∀ p ∈ rest, canonical_image_key p.2.src = p.1 :=
      fun p hp => hcons p (List.mem_cons_of_mem _ hp)
    have hnotin : kh ∉ rest.map Prod.fst := by
      rw [List.map_cons] at hnd
      exact (List.nodup_cons.mp hnd).1
    by_cases hk : kh = k
    · subst hk
      have hrest : (rest.map Prod.snd).filter
          (fun w => decide (canonical_image_key w.src = kh)) = [] := by
        rw [List.filter_eq_nil_iff]
        intro w hw
        rcases List.mem_map.mp hw with ⟨q, hq, rfl⟩
        have hcq := hconsr q hq
        simp only [decide_eq_true_eq]
        intro hcon
        have hq1 : q.1 = kh := hcq.symm.trans hcon
        apply hnotin
        rw [← hq1]
        exact List.mem_map.mpr ⟨q, hq, rfl⟩
      rw [List.map_cons, List.filter_cons, if_pos (by simp [hv]), hrest]
      rw [show alookup kh ((kh, v) :: rest) = some v from by
        simp [alookup]]
      rfl
    · rw [List.map_cons, List.filter_cons, if_neg (by simp [hv, hk])]
      rw [show alookup k ((kh, v) :: rest) = alookup k rest from by
        simp [alookup, hk]]
      exact ih hndr hconsr

/-- C1: per canonical-key group, `dedupe_keep_largest` keeps exactly one
    candidate - the first one attaining the maximal effective width of the
    group (a missing or falsy width being inferred from the URL by
    `infer_width_from_url`), with that width written back into the record -
    and the output is ordered by first insertion of each canonical key. -/
theorem dedupe_keep_largest_groups (images : List ImageCandidate) :
    ((dedupe_keep_largest images).map (fun x => canonical_image_key x.src)
        = firstSeenKeys (images.map (fun x => canonical_image_key x.src)))
    ∧ ∀ k ∈ images.map (fun x => canonical_image_key x.src),
        ∃ pre it post,
          images.filter (fun x => canonical_image_key x.src = k)
            = pre ++ it :: post
          ∧ (dedupe_keep_largest images).filter
              (fun x => canonical_image_key x.src = k)
              = [{ it with width := some (effWidth it) }]
          ∧ (∀ x ∈ pre, effWidth x < effWidth it)
          ∧ (∀ x ∈ images.filter (fun x => canonical_image_key x.src = k),
              effWidth x ≤ effWidth it) := by
  constructor
  · have h1 : (dedupe_keep_largest images).map
        (fun x => canonical_image_key x.src)
        = (images.foldl dedupeStep []).map Prod.fst := by
      unfold dedupe_keep_largest
      rw [List.map_map]
      exact List.map_congr_left
        (fun p hp => foldl_dedupeStep_consistent images p hp)
    rw [h1, foldl_dedupeStep_keys]
  · intro k hk
    rcases List.mem_map.mp hk with ⟨it0, hit0, hkey0⟩
    have hne : images.filter (fun x => canonical_image_key x.src = k)
        ≠ [] := by
      intro hnil
      have hin : it0 ∈ images.filter
          (fun x => canonical_image_key x.src = k) :=
        List.mem_filter.mpr ⟨hit0, by simp [hkey0]⟩
      rw [hnil] at hin
      cases hin
    rcases foldl_dedupePick_first_max _ hne with
      ⟨pre, it, post, hsplit, hfold, hpre, hmax⟩
    refine ⟨pre, it, post, hsplit, ?_, hpre, hmax⟩
    have halo : alookup k (images.foldl dedupeStep [])
        = some { it with width := some (effWidth it) } := by
      rw [foldl_dedupeStep_alookup, hfold]
    have hnd : ((images.foldl dedupeStep []).map Prod.fst).Nodup := by
      rw [foldl_dedupeStep_keys]
      exact firstSeenKeys_nodup _
    have hbv := bucket_values_filter (images.foldl dedupeStep []) hnd
      (foldl_dedupeStep_consistent images) k
    unfold dedupe_keep_largest
    rw [hbv, halo]
    rfl

/-- The group-wise guarantee instantiated on `imgsC1` at the shared espncdn
    key. -/
theorem dedupe_keep_largest_groups_witness :
    ∃ pre it post,
      imgsC1.filter (fun x => canonical_image_key x.src = c1key)
        = pre ++ it :: post
      ∧ (dedupe_keep_largest imgsC1).filter
          (fun x => canonical_image_key x.src = c1key)
          = [{ it with width := some (effWidth it) }]
      ∧ (∀ x ∈ pre, effWidth x < effWidth it)
      ∧ (∀ x ∈ imgsC1.filter (fun x => canonical_image_key x.src = c1key),
          effWidth x ≤ effWidth it) :=
  (dedupe_keep_largest_groups imgsC1).2 c1key (by decide)

/-- Helper: `canonical_image_key` factored through its components. -/
theorem canonical_image_key_eq (url : List Char) :
    canonical_image_key url =
      (if (urlparse url).netloc.isEmpty then "espncdn".data
       else (urlparse url).netloc)
        ++ ':' :: stripSizeSuffixes
            (combinerBase (urlparse url).query (urlparse url).path) := rfl

/-- Helper: the strip pattern never fires off an underscore. -/
theorem matchTail_ne (c : Char) (r : List Char) (hc : ¬ c = '_') :
    matchTail c r = none := by
  unfold matchTail
  rw [if_neg hc]

/-- Helper: a string without underscores is left unchanged by the scan. -/
theorem stripAux_no_underscore (l : List Char) (h : '_' ∉ l) :
    ∀ fuel, stripAux fuel l = l := by
  induction l with
  | nil =>
    intro fuel
    cases fuel <;> rfl
  | cons c r ih =>
    intro fuel
    cases fuel with
    | zero => rfl
    | succ n =>
      have hc : ¬ c = '_' := fun he => h (List.mem_cons.mpr (Or.inl he.symm))
      show (match matchTail c r with
            | some k => stripAux n (r.drop k)
            | none => c :: stripAux n r) = c :: r
      rw [matchTail_ne c r hc, ih (fun hm => h (List.mem_cons_of_mem _ hm)) n]

/-- Helper: an underscore-free prefix is copied and the scan continues on the
    tail. -/
theorem stripAux_append_clean (a : List Char) (ha : '_' ∉ a) :
    ∀ (t : List Char) (fuel : Nat),
      stripAux (a.length + fuel) (a ++ t) = a ++ stripAux fuel t := by
  induction a with
  | nil =>
    intro t fuel
    rw [List.length_nil, Nat.zero_add]
    rfl
  | cons c a0 ih =>
    intro t fuel
    have hc : ¬ c = '_' := fun he => ha (List.mem_cons.mpr (Or.inl he.symm))
    rw [show (c :: a0).length + fuel = (a0.length + fuel) + 1 from by
      rw [List.length_cons]; omega]
    show (match matchTail c (a0 ++ t) with
          | some k => stripAux (a0.length + fuel) ((a0 ++ t).drop k)
          | none => c :: stripAux (a0.length + fuel) (a0 ++ t))
        = (c :: a0) ++ stripAux fuel t
    rw [matchTail_ne c _ hc,
        ih (fun hm => ha (List.mem_cons_of_mem _ hm)) t fuel]
    rfl

/-- Helper: at a `_WxH.` suffix with 2-4 digit components, the pattern
    matches and consumes exactly `W`, the `x` and `H`. -/
theorem matchTail_suffix (wd ht ext : List Char)
    (hw : ∀ c ∈ wd, isDigitC c = true)
    (hw2 : 2 ≤ wd.length) (hw4 : wd.length ≤ 4)
    (hh : ∀ c ∈ ht, isDigitC c = true)
    (hh2 : 2 ≤ ht.length) (hh4 : ht.length ≤ 4) :
    matchTail '_' (wd ++ 'x' :: (ht ++ '.' :: ext))
      = some (wd.length + 1 + ht.length) := by
  have h1 : takeRun isDigitC (wd ++ 'x' :: (ht ++ '.' :: ext)) = wd :=
    takeRun_append _ _ _ _ hw (by decide)
  have h2 : takeRun isDigitC (ht ++ '.' :: ext) = ht :=
    takeRun_append _ _ _ _ hh (by decide)
  unfold matchTail
  rw [if_pos rfl]
  simp only [h1]
  rw [if_pos ⟨hw2, hw4⟩, List.drop_left]
  simp only [h2]
  rw [if_pos ⟨hh2, hh4⟩, List.drop_left]
  rfl

/-- Helper: one size suffix immediately before the extension is removed when
    the rest of the path has no underscores. -/
theorem stripSizeSuffixes_suffix (pre wd ht ext : List Char)
    (hpre : '_' ∉ pre) (hext : '_' ∉ ext)
    (hw : ∀ c ∈ wd, isDigitC c = true)
    (hw2 : 2 ≤ wd.length) (hw4 : wd.length ≤ 4)
    (hh : ∀ c ∈ ht, isDigitC c = true)
    (hh2 : 2 ≤ ht.length) (hh4 : ht.length ≤ 4) :
    stripSizeSuffixes (pre ++ '_' :: (wd ++ 'x' :: (ht ++ '.' :: ext)))
      = pre ++ '.' :: ext := by
  have hdot : ('_' : Char) ∉ '.' :: ext := by
    intro hm
    rcases List.mem_cons.mp hm with h1 | h1
    · exact absurd h1 (by decide)
    · exact hext h1
  have hmain : stripAux (('_' :: (wd ++ 'x' :: (ht ++ '.' :: ext))).length)
      ('_' :: (wd ++ 'x' :: (ht ++ '.' :: ext))) = '.' :: ext := by
    show (match matchTail '_' (wd ++ 'x' :: (ht ++ '.' :: ext)) with
          | some k => stripAux (wd ++ 'x' :: (ht ++ '.' :: ext)).length
              ((wd ++ 'x' :: (ht ++ '.' :: ext)).drop k)
          | none => '_' :: stripAux (wd ++ 'x' :: (ht ++ '.' :: ext)).length
              (wd ++ 'x' :: (ht ++ '.' :: ext))) = '.' :: ext
    rw [matchTail_suffix wd ht ext hw hw2 hw4 hh hh2 hh4]
    show stripAux (wd ++ 'x' :: (ht ++ '.' :: ext)).length
        ((wd ++ 'x' :: (ht ++ '.' :: ext)).drop
          (wd.length + 1 + ht.length)) = '.' :: ext
    have hdrop : (wd ++ 'x' :: (ht ++ '.' :: ext)).drop
        (wd.length + 1 + ht.length) = '.' :: ext := by
      rw [show wd ++ 'x' :: (ht ++ '.' :: ext)
            = (wd ++ 'x' :: ht) ++ '.' :: ext from by simp,
          show wd.length + 1 + ht.length = (wd ++ 'x' :: ht).length from by
            rw [List.length_append, List.length_cons]; omega]
      exact List.drop_left _ _
    rw [hdrop]
    exact stripAux_no_underscore _ hdot _
  unfold stripSizeSuffixes
  rw [List.length_append, stripAux_append_clean pre hpre, hmain]

/-- Helper: parsing a plain `https://host/path` URL without query or
    fragment. -/
theorem urlparse_plain (host path : List Char)
    (hhn : ∀ c ∈ host, isNetlocEnd c = false)
    (hq : '?' ∉ path) (hf : '#' ∉ path) :
    urlparse ("https://".data ++ (host ++ '/' :: path))
      = ⟨"https".data, host, '/' :: path, [], []⟩ := by
  have heq : "https://".data ++ (host ++ '/' :: path)
      = "https".data ++ ':' :: ('/' :: '/' :: (host ++ '/' :: path)) := by
    rw [show "https://".data = "https".data ++ [':', '/', '/'] from rfl]
    simp
  have hnohash : '#' ∉ ('/' : Char) :: path := by
    intro hm
    rcases List.mem_cons.mp hm with h1 | h1
    · exact absurd h1 (by decide)
    · exact hf h1
  have hnoq : '?' ∉ ('/' : Char) :: path := by
    intro hm
    rcases List.mem_cons.mp hm with h1 | h1
    · exact absurd h1 (by decide)
    · exact hq h1
  rw [heq]
  unfold urlparse
  rw [splitScheme_append "https".data _
    ⟨'h', "ttps".data, rfl, by decide⟩ (by decide) (by decide)]
  have hrun : takeRun (fun c => ¬ isNetlocEnd c) (host ++ '/' :: path)
      = host := netlocRun host '/' path hhn (by decide)
  simp only [hrun, List.drop_left]
  rw [splitFirst_no_sep _ _ hnohash, splitFirst_no_sep _ _ hnoq]
  rfl

/-- C2 counterexample: the two URLs differ exactly by a `_99x88` size suffix
    placed immediately before the `.jpg` extension, yet their canonical keys
    differ - the regular expression strips the `_12x34_56` run from one URL
    and only the `_99x88` token from the other. -/
theorem canonical_key_size_suffix_counterexample :
    ("https://h/a_12x34_56_99x88.jpg".data
        = "https://h/a_12x34_56".data
            ++ '_' :: ("99".data ++ 'x' :: ("88".data ++ '.' :: "jpg".data)))
    ∧ ("https://h/a_12x34_56.jpg".data
        = "https://h/a_12x34_56".data ++ '.' :: "jpg".data)
    ∧ canonical_image_key "https://h/a_12x34_56_99x88.jpg".data
        ≠ canonical_image_key "https://h/a_12x34_56.jpg".data := by
  decide

/-- C2 (amended): the canonical key is invariant under the resizing query
    parameters - two URLs with the same scheme, host and path whose queries
    select the same combiner base yield the same key - and a single `_WxH`
    size suffix (2-4 digits each) immediately before the extension is
    stripped provided no other underscore occurs in the path; the
    counterexample shows the underscore proviso is needed. -/
theorem canonical_key_invariance :
    (∀ s nl p q1 q2 : List Char,
      (∃ c s0, s = c :: s0 ∧ isAlphaC c = true) →
      (∀ c ∈ s, isSchemeC c = true) → lowerL s = s →
      nl ≠ [] → (∀ c ∈ nl, isNetlocEnd c = false) →
      (p = [] ∨ ∃ p0, p = '/' :: p0) → '?' ∉ p → '#' ∉ p →
      q1 ≠ [] → '#' ∉ q1 → q2 ≠ [] → '#' ∉ q2 →
      combinerBase q1 p = combinerBase q2 p →
      canonical_image_key (urlunparse ⟨s, nl, p, q1, []⟩)
        = canonical_image_key (urlunparse ⟨s, nl, p, q2, []⟩))
    ∧ (∀ host pre wd ht ext : List Char,
      host ≠ [] → (∀ c ∈ host, isNetlocEnd c = false) →
      '_' ∉ pre → '?' ∉ pre → '#' ∉ pre →
      '_' ∉ ext → '?' ∉ ext → '#' ∉ ext →
      (∀ c ∈ wd, isDigitC c = true) → 2 ≤ wd.length → wd.length ≤ 4 →
      (∀ c ∈ ht, isDigitC c = true) → 2 ≤ ht.length → ht.length ≤ 4 →
      canonical_image_key ("https://".data ++ (host ++ '/' ::
          (pre ++ '_' :: (wd ++ 'x' :: (ht ++ '.' :: ext)))))
        = canonical_image_key ("https://".data ++ (host ++ '/' ::
          (pre ++ '.' :: ext)))) := by
  constructor
  · intro s nl p q1 q2 hs hsA hsLow hnl0 hnl hp hpq hpf hq10 hq1f hq20 hq2f
      hcomb
    rw [canonical_image_key_eq, canonical_image_key_eq,
        urlparse_urlunparse s nl p q1 [] hs hsA hsLow hnl0 hnl hp hpq hpf
          hq10 hq1f,
        urlparse_urlunparse s nl p q2 [] hs hsA hsLow hnl0 hnl hp hpq hpf
          hq20 hq2f]
    show (if nl.isEmpty then _ else nl) ++ ':' ::
        stripSizeSuffixes (combinerBase q1 p)
      = (if nl.isEmpty then _ else nl) ++ ':' ::
        stripSizeSuffixes (combinerBase q2 p)
    rw [hcomb]
  · intro host pre wd ht ext hh0 hhn hupre hqpre hfpre huext hqext hfext
      hw hw2 hw4 hhd hh2 hh4
    have hnotmem : ∀ c : Char, c ∉ pre → c ∉ ext → ¬ c = '_' → ¬ c = 'x' →
        ¬ c = '.' → isDigitC c = false →
        c ∉ pre ++ '_' :: (wd ++ 'x' :: (ht ++ '.' :: ext)) := by
      intro c hcp hce hcu hcx hcd hcdig hm
      rcases List.mem_append.mp hm with h | h
      · exact hcp h
      rcases List.mem_cons.mp h with h | h
      · exact hcu h
      rcases List.mem_append.mp h with h | h
      · rw [hw c h] at hcdig
        cases hcdig
      rcases List.mem_cons.mp h with h | h
      · exact hcx h
      rcases List.mem_append.mp h with h | h
      · rw [hhd c h] at hcdig
        cases hcdig
      rcases List.mem_cons.mp h with h | h
      · exact hcd h
      · exact hce h
    have hnotmem2 : ∀ c : Char, c ∉ pre → c ∉ ext → ¬ c = '.' →
        c ∉ pre ++ '.' :: ext := by
      intro c hcp hce hcd hm
      rcases List.mem_append.mp hm with h | h
      · exact hcp h
      rcases List.mem_cons.mp h with h | h
      · exact hcd h
      · exact hce h
    rw [canonical_image_key_eq, canonical_image_key_eq,
        urlparse_plain host _ hhn
          (hnotmem '?' hqpre hqext (by decide) (by decide) (by decide)
            (by decide))
          (hnotmem '#' hfpre hfext (by decide) (by decide) (by decide)
            (by decide)),
        urlparse_plain host _ hhn
          (hnotmem2 '?' hqpre hqext (by decide))
          (hnotmem2 '#' hfpre hfext (by decide))]
    show (if host.isEmpty then _ else host) ++ ':' ::
        stripSizeSuffixes (combinerBase []
          ('/' :: (pre ++ '_' :: (wd ++ 'x' :: (ht ++ '.' :: ext)))))
      = (if host.isEmpty then _ else host) ++ ':' ::
        stripSizeSuffixes (combinerBase [] ('/' :: (pre ++ '.' :: ext)))
    have hcombNil : ∀ b : List Char, combinerBase [] b = b := fun b => rfl
    rw [hcombNil, hcombNil]
    have hupre2 : '_' ∉ ('/' : Char) :: pre := by
      intro hm
      rcases List.mem_cons.mp hm with h | h
      · exact absurd h (by decide)
      · exact hupre h
    have hstrip1 : stripSizeSuffixes
        ('/' :: (pre ++ '_' :: (wd ++ 'x' :: (ht ++ '.' :: ext))))
        = ('/' :: pre) ++ '.' :: ext := by
      rw [show '/' :: (pre ++ '_' :: (wd ++ 'x' :: (ht ++ '.' :: ext)))
            = ('/' :: pre) ++ '_' :: (wd ++ 'x' :: (ht ++ '.' :: ext))
          from rfl]
      exact stripSizeSuffixes_suffix _ _ _ _ hupre2 huext hw hw2 hw4
        hhd hh2 hh4
    have hstrip2 : stripSizeSuffixes ('/' :: (pre ++ '.' :: ext))
        = ('/' :: pre) ++ '.' :: ext := by
      have hno : '_' ∉ ('/' :: pre) ++ '.' :: ext := by
        intro hm
        rcases List.mem_append.mp hm with h | h
        · exact hupre2 h
        rcases List.mem_cons.mp h with h | h
        · exact absurd h (by decide)
        · exact huext h
      rw [show '/' :: (pre ++ '.' :: ext) = ('/' :: pre) ++ '.' :: ext
          from rfl]
      exact stripAux_no_underscore _ hno _
    rw [hstrip1, hstrip2]

/-- The two invariances instantiated: percent-encoded combiner queries with
    different resizing parameters, and a `_12x34` suffix before `.jpg`. -/
theorem canonical_key_invariance_witness :
    (canonical_image_key (urlunparse ⟨"https".data, "a.com".data, "/i".data,
        "img=%2Fp.jpg&w=100".data, []⟩)
      = canonical_image_key (urlunparse ⟨"https".data, "a.com".data,
        "/i".data, "img=%2Fp.jpg".data, []⟩))
    ∧ (canonical_image_key ("https://".data ++ ("h".data ++ '/' ::
        ("a".data ++ '_' :: ("12".data ++ 'x' :: ("34".data ++ '.' ::
          "jpg".data)))))
      = canonical_image_key ("https://".data ++ ("h".data ++ '/' ::
        ("a".data ++ '.' :: "jpg".data)))) :=
  ⟨canonical_key_invariance.1 "https".data "a.com".data "/i".data
      "img=%2Fp.jpg&w=100".data "img=%2Fp.jpg".data
      ⟨'h', "ttps".data, rfl, by decide⟩ (by decide) (by decide)
      (by decide) (by decide) (Or.inr ⟨"i".data, rfl⟩) (by decide)
      (by decide) (by decide) (by decide) (by decide) (by decide)
      (by decide),
   canonical_key_invariance.2 "h".data "a".data "12".data "34".data
      "jpg".data (by decide) (by decide) (by decide) (by decide)
      (by decide) (by decide) (by decide) (by decide) (by decide)
      (by decide) (by decide) (by decide) (by decide) (by decide)⟩

end Scraper
